import Mathlib

/-!
The sliding-window correlation accumulator of mcorr-vcf

A shallow embedding of `cmd/development/mcorr-vcf/main.go`: the record type,
the pair computation `compute`, the main loop and the output loop of `main`,
and the decoder `readVCF`, followed by the properties proved about them.

Conventions of the embedding.

* The record channel is a `List VCFRecord`; ranging over the channel is
  recursion over the list.
* Go `int` values (positions, `maxl`, the region bounds) are `Int`; a value of the
  program lies in `[-2^63, 2^63)`, and a slice has at most `2^63 - 1` cells. The one
  arithmetic operation of the program on positions, the subtraction
  `rec.Pos - buffer[0].Pos` of lines 33 and 73, wraps around as in Go: it is `wsub`.
  Statements that speak of the exact difference of two positions carry the condition
  under which the two agree. A counter cell would need `2^63` increments to overflow;
  the increment `p2counts[lag]++` is exact.
* A run-time panic (slice index out of range, `make` with a negative length,
  the `panic(err)` of `atoi`) is the `Except.error` result of type `Fault`.
  Memory is not bounded: `make` with a non-negative length and `append` always
  succeed.
* `float64` cells are the type `F64`: a finite value is carried as an exact
  rational (rounding is not modelled), and the non-finite values `+Inf`, `-Inf`
  and `NaN` are carried explicitly. The program never produces a negative zero,
  so the finite value 0 stands for `+0.0`.
* The decoder `readVCF` is a function from the text of the file, a `List Char`
  (the file is taken to be valid UTF-8, one `Char` per rune), to the list of the
  records it sends on the channel, or to the panic that stops it. Go strings are
  `List Char`; `len` is the length in bytes of the UTF-8 encoding. The library
  functions `bufio.Reader.ReadString`, `strings.TrimSpace`, `strings.Split` and
  `strconv.Atoi` follow the documentation of the Go standard library.
* `readVCF` is the decoder read against a consumer that takes every record. The
  decoder and `main` together are `program`: the channel is unbuffered, so the decoder
  reads on only while `main` receives, and after the `break` of `main` it reads at most
  up to its next send.
-/

namespace Mcorr

/-! ## Data model -/

/-- One `VCFRecord`: the fields assigned by `readVCF`. -/
structure VCFRecord where
  Chrom : String
  Pos : Int
  Ref : String
  Alt : String
  GTs : List Char
deriving DecidableEq

/-- Run-time panics of the program. -/
inductive Fault where
  | indexOutOfRange
  | negativeLen
  | atoi
deriving DecidableEq

/-- Values of a `float64`: a finite value (exact), `+Inf`, `NaN`, or `-Inf`. -/
inductive F64 where
  | fin (q : ℚ)
  | inf
  | nan
  | ninf
deriving DecidableEq

/-- Addition of `float64` values: `NaN` absorbs, infinities of opposite sign add to `NaN`,
an infinity absorbs finite values. -/
def F64.add : F64 → F64 → F64
  | .fin a, .fin b => .fin (a + b)
  | .nan, _ => .nan
  | _, .nan => .nan
  | .inf, .ninf => .nan
  | .ninf, .inf => .nan
  | .inf, _ => .inf
  | _, .inf => .inf
  | _, _ => .ninf

/-- The value `0.0` that `make([]float64, n)` fills in. -/
def F64.zero : F64 := .fin 0

/-- The quotient `xy / float64(n)` of two counts: `0/0` is `NaN`, `x/0` with `x > 0` is `+Inf`. -/
def fdiv (xy n : Nat) : F64 :=
  if n = 0 then (if xy = 0 then .nan else .inf) else .fin ((xy : ℚ) / (n : ℚ))

/-- Modelled from the spec: the pair counter `NuclCov` of package `mcorr` (its source file is
not among the sources). It keeps the alphabet it was built with, the number `xy` of added
slots whose two symbols are both the derived symbol `1`, and the number `n` of added slots
whose two symbols are both genotype calls, that is, symbols of the alphabet. -/
structure NuclCov where
  Alphabet : List Char
  xy : Nat
  n : Nat
deriving DecidableEq

/-- Modelled from the spec: `mcorr.NewNuclCov(alphabet)`, a counter with nothing added. -/
def NewNuclCov (alphabet : List Char) : NuclCov := ⟨alphabet, 0, 0⟩

/-- Modelled from the spec: `nc.Add(a, b)` counts one slot: it is valid when both symbols
are calls of the alphabet, and contributes to `xy` when both are `1`. -/
def NuclCov.Add (nc : NuclCov) (a b : Char) : NuclCov :=
  if a ∈ nc.Alphabet ∧ b ∈ nc.Alphabet then
    ⟨nc.Alphabet, (if a = '1' ∧ b = '1' then nc.xy + 1 else nc.xy), nc.n + 1⟩
  else nc

/-- Modelled from the spec: `nc.P11(minAlleleNum)` returns the pair `(xy, n)`; the spec
gives the argument no role. -/
def NuclCov.P11 (nc : NuclCov) (_minAlleleNum : Int) : Nat × Nat := (nc.xy, nc.n)

/-- The two accumulator slices `p2arr` and `p2counts`. -/
structure Acc where
  p2arr : List F64
  p2counts : List Int
deriving DecidableEq

/-- The loop state of `main`: the window `buffer` and the accumulators. -/
structure State where
  buffer : List VCFRecord
  acc : Acc
deriving DecidableEq

/-! ## `compute` -/

/-- The value of a 64-bit two's-complement `int` that holds the integer `x` modulo `2^64`. -/
def wrap64 (x : Int) : Int := (x + 2 ^ 63) % 2 ^ 64 - 2 ^ 63

/-- The Go expression `a - b` on two values of type `int`: the difference, wrapped around. -/
def wsub (a b : Int) : Int := wrap64 (a - b)

/-- The inner loop of `compute`, `for k := 0; k < len(a); k++ { nc.Add(a[k], b[k]) }` with
`a = buffer[0].GTs` and `b = buffer[i].GTs`: it walks `a`, and indexing `b` past its end
panics. -/
def addGTs : NuclCov → List Char → List Char → Except Fault NuclCov
  | nc, [], _ => .ok nc
  | _, _ :: _, [] => .error .indexOutOfRange
  | nc, a :: as, b :: bs => addGTs (nc.Add a b) as bs

/-- The statement `p2arr[lag] += v`. -/
def addAt (p2arr : List F64) (lag : Int) (v : F64) : Except Fault (List F64) :=
  if 0 ≤ lag ∧ lag < (p2arr.length : Int) then
    .ok (p2arr.set lag.toNat ((p2arr.getD lag.toNat F64.zero).add v))
  else .error .indexOutOfRange

/-- The statement `p2counts[lag]++`. -/
def incAt (p2counts : List Int) (lag : Int) : Except Fault (List Int) :=
  if 0 ≤ lag ∧ lag < (p2counts.length : Int) then
    .ok (p2counts.set lag.toNat (p2counts.getD lag.toNat 0 + 1))
  else .error .indexOutOfRange

/-- One iteration of the outer loop of `compute`, for `front = buffer[0]` and `r = buffer[i]`. -/
def computeAt (front : VCFRecord) (acc : Acc) (r : VCFRecord) : Except Fault Acc :=
  match addGTs (NewNuclCov ['0', '1']) front.GTs r.GTs with
  | .error e => .error e
  | .ok nc =>
    let lag := wsub r.Pos front.Pos
    let p := nc.P11 0
    match addAt acc.p2arr lag (fdiv p.1 p.2) with
    | .error e => .error e
    | .ok p2arr =>
      match incAt acc.p2counts lag with
      | .error e => .error e
      | .ok p2counts => .ok ⟨p2arr, p2counts⟩

/-- The outer loop of `compute` over the records still to visit. -/
def computeLoop (front : VCFRecord) : List VCFRecord → Acc → Except Fault Acc
  | [], acc => .ok acc
  | r :: rest, acc =>
    match computeAt front acc r with
    | .error e => .error e
    | .ok acc1 => computeLoop front rest acc1

/-- The function `compute(buffer, p2arr, p2counts)`: every record of the buffer, the front
included, is paired with the front `buffer[0]`. An empty buffer is left alone. -/
def compute (buffer : List VCFRecord) (acc : Acc) : Except Fault Acc :=
  match buffer with
  | [] => .ok acc
  | front :: _ => computeLoop front buffer acc

/-! ## The main loop -/

/-- The body of `for rec := range vcfChan`. The result `none` is the `break`. -/
def loopBody (maxl regionStart regionEnd : Int) (st : State) (r : VCFRecord) :
    Except Fault (Option State) :=
  if r.Pos < regionStart ∨ r.Pos > regionEnd then .ok none
  else
    match st.buffer with
    | [] => .ok (some ⟨st.buffer ++ [r], st.acc⟩)
    | front :: rest =>
      if wsub r.Pos front.Pos < maxl then .ok (some ⟨st.buffer ++ [r], st.acc⟩)
      else
        match compute st.buffer st.acc with
        | .error e => .error e
        | .ok acc1 => .ok (some ⟨rest, acc1⟩)

/-- The loop `for rec := range vcfChan` run over the records of the channel. -/
def mainLoop (maxl regionStart regionEnd : Int) : List VCFRecord → State → Except Fault State
  | [], st => .ok st
  | r :: rest, st =>
    match loopBody maxl regionStart regionEnd st r with
    | .error e => .error e
    | .ok none => .ok st
    | .ok (some st1) => mainLoop maxl regionStart regionEnd rest st1

/-- The states reached after each completed iteration of the main loop, oldest first. -/
def loopStates (maxl regionStart regionEnd : Int) : List VCFRecord → State → List State
  | [], _ => []
  | r :: rest, st =>
    match loopBody maxl regionStart regionEnd st r with
    | .error _ => []
    | .ok none => []
    | .ok (some st1) => st1 :: loopStates maxl regionStart regionEnd rest st1

/-- The accumulators `make([]float64, maxl)` and `make([]int64, maxl)`. -/
def newAcc (maxl : Int) : Acc :=
  ⟨List.replicate maxl.toNat F64.zero, List.replicate maxl.toNat 0⟩

/-- The state before the first record: empty window, zeroed accumulators. -/
def initState (maxl : Int) : State := ⟨[], newAcc maxl⟩

/-- The accumulating part of `main` (lines 26 to 41): allocate, loop, final `compute`. -/
def run (maxl regionStart regionEnd : Int) (stream : List VCFRecord) : Except Fault Acc :=
  if maxl < 0 then .error .negativeLen
  else
    match mainLoop maxl regionStart regionEnd stream (initState maxl) with
    | .error e => .error e
    | .ok st => compute st.buffer st.acc

/-! ## Vocabulary of the statements -/

/-- The cell `count[l]`. -/
def countAt (acc : Acc) (l : Nat) : Int := acc.p2counts.getD l 0

/-- The cell `sum[l]`. -/
def sumAt (acc : Acc) (l : Nat) : F64 := acc.p2arr.getD l F64.zero

/-- Positions are non-decreasing along the list. -/
def NonDecreasing (s : List VCFRecord) : Prop := s.Pairwise (fun a b => a.Pos ≤ b.Pos)

instance (s : List VCFRecord) : Decidable (NonDecreasing s) := by
  unfold NonDecreasing; infer_instance

/-- Every record lies inside `[regionStart, regionEnd]`. -/
def InRegion (regionStart regionEnd : Int) (s : List VCFRecord) : Prop :=
  ∀ r ∈ s, regionStart ≤ r.Pos ∧ r.Pos ≤ regionEnd

instance (a b : Int) (s : List VCFRecord) : Decidable (InRegion a b s) := by
  unfold InRegion; infer_instance

/-- All genotype vectors have the length `n`. -/
def EqualLen (n : Nat) (s : List VCFRecord) : Prop := ∀ r ∈ s, r.GTs.length = n

instance (n : Nat) (s : List VCFRecord) : Decidable (EqualLen n s) := by
  unfold EqualLen; infer_instance

/-- The number of slots `k` with `a[k] = 1` and `b[k] = 1`. -/
def xyCount (a b : List Char) : Nat :=
  (List.zip a b).countP (fun p => decide (p.1 = '1' ∧ p.2 = '1'))

/-- The number of slots `k` where both `a[k]` and `b[k]` are calls of the alphabet `0`, `1`. -/
def nCount (a b : List Char) : Nat :=
  (List.zip a b).countP (fun p => decide (p.1 ∈ ['0', '1'] ∧ p.2 ∈ ['0', '1']))

/-- The per-pair statistic `xy / n` of two records. -/
def pairStat (a b : VCFRecord) : F64 := fdiv (xyCount a.GTs b.GTs) (nCount a.GTs b.GTs)

/-- The records of `w` at distance `l` from the record `f`. -/
def hits (f : VCFRecord) (l : Int) (w : List VCFRecord) : List VCFRecord :=
  w.filter (fun r => decide (r.Pos - f.Pos = l))

/-- A record at position `p` with the genotype string `g`. -/
def mkRec (p : Int) (g : String) : VCFRecord := ⟨"1", p, "A", "C", g.toList⟩

/-- Two records whose positions, `-5·10^18` and `5·10^18`, are values of a Go `int` while
their difference `10^19` is not. -/
def farApart : List VCFRecord :=
  [mkRec (-5000000000000000000) "01", mkRec 5000000000000000000 "01"]

/-- The number of records of the window `w` at distance `l` from its front `w[0]`. -/
def frontHits (w : List VCFRecord) (l : Int) : Nat :=
  match w with
  | [] => 0
  | f :: _ => (hits f l w).length

/-- The number of record pairs `(i, j)` with `i ≤ j` (self-pairs included) and
`position[j] - position[i] = l`. -/
def pairsAtLag : List VCFRecord → Int → Nat
  | [], _ => 0
  | r :: rest, l => (hits r l (r :: rest)).length + pairsAtLag rest l

/-- The difference of any two positions of the list fits a Go `int`: it is below `2^63` (and
so, taken the other way round, above `-2^63`), and the subtraction does not wrap around. -/
def NoWrap (s : List VCFRecord) : Prop := ∀ a ∈ s, ∀ b ∈ s, a.Pos - b.Pos < 2 ^ 63

instance (s : List VCFRecord) : Decidable (NoWrap s) := by
  unfold NoWrap; infer_instance

/-- The window invariant of the main loop: positions are non-decreasing along the window
followed by the records still to come, any two window records are less than `maxl` apart,
and no difference of two of these positions wraps around. -/
def WinInv (maxl : Int) (buf upcoming : List VCFRecord) : Prop :=
  NonDecreasing (buf ++ upcoming) ∧ (∀ a ∈ buf, ∀ b ∈ buf, a.Pos - b.Pos < maxl) ∧
    NoWrap (buf ++ upcoming)

/-! ## The calls of `compute` made by a run -/

/-- The window that the body of the main loop passes to `compute` (line 37) for the incoming
record `r`, when it takes the evicting branch. -/
def stepCall (maxl regionStart regionEnd : Int) (st : State) (r : VCFRecord) :
    Option (List VCFRecord) :=
  if r.Pos < regionStart ∨ r.Pos > regionEnd then none
  else
    match st.buffer with
    | [] => none
    | front :: _ => if wsub r.Pos front.Pos < maxl then none else some st.buffer

/-- The windows passed to `compute` by the iterations of the main loop, in order; a call that
panics is the last one listed. -/
def loopCalls (maxl regionStart regionEnd : Int) :
    List VCFRecord → State → List (List VCFRecord)
  | [], _ => []
  | r :: rest, st =>
    match loopBody maxl regionStart regionEnd st r with
    | .error _ => (stepCall maxl regionStart regionEnd st r).toList
    | .ok none => []
    | .ok (some st1) =>
      (stepCall maxl regionStart regionEnd st r).toList ++
        loopCalls maxl regionStart regionEnd rest st1

/-- The windows passed to `compute` in a whole run: the calls of the loop, then the call of
line 41 on the window left at end of stream (which may be empty). -/
def runCalls (maxl regionStart regionEnd : Int) (stream : List VCFRecord) :
    List (List VCFRecord) :=
  if maxl < 0 then []
  else
    loopCalls maxl regionStart regionEnd stream (initState maxl) ++
      (match mainLoop maxl regionStart regionEnd stream (initState maxl) with
       | .error _ => []
       | .ok st => [st.buffer])

/-- The number of records behind the front of the window `w` that sit at the position of the
front. -/
def frontTies (w : List VCFRecord) : Nat :=
  match w with
  | [] => 0
  | f :: b => (hits f 0 b).length

/-- The records that the main loop consumes: those before the first record outside
`[regionStart, regionEnd]`. -/
def consumed (regionStart regionEnd : Int) (stream : List VCFRecord) : List VCFRecord :=
  stream.takeWhile (fun r => decide (regionStart ≤ r.Pos ∧ r.Pos ≤ regionEnd))

/-- Positions strictly increase along the list. -/
def StrictlyIncreasing (s : List VCFRecord) : Prop := s.Pairwise (fun a b => a.Pos < b.Pos)

instance (s : List VCFRecord) : Decidable (StrictlyIncreasing s) := by
  unfold StrictlyIncreasing; infer_instance

/-! ## The output rows (lines 48 to 64) -/

/-- One output row `l,m,0,n,t,all`: lag, value, pair count, kind. -/
structure Row where
  l : Nat
  m : F64
  n : Int
  t : String
deriving DecidableEq

/-- The conversion `float64(n)` of an `int64`. -/
def F64.ofInt (n : Int) : F64 := .fin (n : ℚ)

/-- Division of `float64` values: `x / 0` is an infinity of the sign of `x`, `0 / 0` and
`Inf / Inf` are `NaN`, a finite value over an infinity is zero. -/
def F64.div : F64 → F64 → F64
  | .nan, _ => .nan
  | _, .nan => .nan
  | .fin a, .fin b =>
    if b = 0 then (if a = 0 then .nan else if 0 < a then .inf else .ninf) else .fin (a / b)
  | .fin _, _ => .fin 0
  | .inf, .fin b => if 0 ≤ b then .inf else .ninf
  | .ninf, .fin b => if 0 ≤ b then .ninf else .inf
  | _, _ => .nan

/-- The body of the output loop for the lag `k`: the row written, if one is. -/
def rowAt (acc : Acc) (k : Nat) : Except Fault (Option Row) :=
  match acc.p2counts[k]? with
  | none => .error .indexOutOfRange
  | some n =>
    if k = 0 then
      match acc.p2arr[0]?, acc.p2counts[0]? with
      | some s0, some c0 =>
        .ok (if n > 0 then some ⟨k, s0.div (F64.ofInt c0), n, "Ks"⟩ else none)
      | _, _ => .error .indexOutOfRange
    else
      match acc.p2arr[k]?, acc.p2arr[0]? with
      | some sk, some s0 => .ok (if n > 0 then some ⟨k, sk.div s0, n, "P2"⟩ else none)
      | _, _ => .error .indexOutOfRange

/-- The output loop over the lags still to visit. -/
def outputLoop (acc : Acc) : List Nat → Except Fault (List Row)
  | [] => .ok []
  | k :: ks =>
    match rowAt acc k with
    | .error e => .error e
    | .ok o =>
      match outputLoop acc ks with
      | .error e => .error e
      | .ok rows => .ok (o.toList ++ rows)

/-- The rows written by `for k := 0; k < len(p2arr); k++`, in the order written. -/
def outputRows (acc : Acc) : Except Fault (List Row) :=
  outputLoop acc (List.range acc.p2arr.length)

/-- The rows that the output contract describes: one for each lag below `m` whose count is
positive, in ascending order, `Ks` at lag 0 and `P2` elsewhere. -/
def expectedRows (acc : Acc) (m : Nat) : List Row :=
  ((List.range m).filter (fun k => decide (0 < countAt acc k))).map (fun k =>
    if k = 0 then ⟨0, (sumAt acc 0).div (F64.ofInt (countAt acc 0)), countAt acc 0, "Ks"⟩
    else ⟨k, (sumAt acc k).div (sumAt acc 0), countAt acc k, "P2"⟩)

/-! ## The decoder `readVCF` -/

/-- The predicate `unicode.IsSpace`, which `strings.TrimSpace` uses. -/
def isSpace (c : Char) : Bool :=
  decide (c.toNat = 9 ∨ c.toNat = 10 ∨ c.toNat = 11 ∨ c.toNat = 12 ∨ c.toNat = 13 ∨
    c.toNat = 32 ∨ c.toNat = 0x85 ∨ c.toNat = 0xA0 ∨ c.toNat = 0x1680 ∨
    (0x2000 ≤ c.toNat ∧ c.toNat ≤ 0x200A) ∨ c.toNat = 0x2028 ∨ c.toNat = 0x2029 ∨
    c.toNat = 0x202F ∨ c.toNat = 0x205F ∨ c.toNat = 0x3000)

/-- The function `strings.TrimSpace`: leading and trailing white space removed. -/
def trimSpace (s : List Char) : List Char :=
  ((s.dropWhile isSpace).reverse.dropWhile isSpace).reverse

/-- The function `strings.Split(s, "\t")`: the fields between the tabs, at least one. -/
def splitTab : List Char → List (List Char)
  | [] => [[]]
  | c :: cs =>
    if c = '\t' then [] :: splitTab cs
    else
      match splitTab cs with
      | [] => [[c]]
      | f :: fs => (c :: f) :: fs

/-- The built-in `len` of a string: the number of bytes of its UTF-8 encoding. -/
def byteLen (s : List Char) : Nat := (s.map Char.utf8Size).sum

/-- The digits loop of `strconv.Atoi`: the value of a string of decimal digits. -/
def parseDigits : List Char → Nat → Option Nat
  | [], n => some n
  | c :: cs, n => if c.isDigit then parseDigits cs (n * 10 + (c.toNat - 48)) else none

/-- The function `strconv.Atoi` on a 64-bit platform: an optional sign, then at least one
decimal digit and nothing else, the value being within the range of `int`. -/
def Atoi (s : List Char) : Option Int :=
  let neg := decide (s.head? = some '-')
  let ds := if s.head? = some '-' ∨ s.head? = some '+' then s.drop 1 else s
  if ds = [] then none
  else
    match parseDigits ds 0 with
    | none => none
    | some n =>
      let v : Int := if neg then -(n : Int) else (n : Int)
      if -(2 : Int) ^ 63 ≤ v ∧ v < (2 : Int) ^ 63 then some v else none

/-- The function `atoi` of the program: `strconv.Atoi`, with `panic(err)` on an error. -/
def atoi (s : List Char) : Except Fault Int :=
  match Atoi s with
  | none => .error .atoi
  | some v => .ok v

/-- The conversion `byte(gt)` of a rune: its low eight bits. -/
def lowByte (c : Char) : Char := Char.ofNat (c.toNat % 256)

/-- The loop `for _, t := range terms` of `readVCF`, from the flag `inGT` and the calls
`gts` gathered so far: a term equal to `GT` raises the flag, any other term met while the
flag is up contributes the bytes of its runes other than the separator `|`. -/
def scanGT : Bool → List (List Char) → List Char → List Char
  | _, [], gts => gts
  | inGT, t :: ts, gts =>
    if t = ['G', 'T'] then scanGT true ts gts
    else if inGT then scanGT true ts (gts ++ (t.filter (fun c => decide (c ≠ '|'))).map lowByte)
    else scanGT false ts gts

/-- The body of the read loop for a line that is not a comment (lines 105 to 126): the record
sent on the channel, if one is, or the panic. -/
def parseLine (line : List Char) : Except Fault (Option VCFRecord) :=
  let terms := splitTab (trimSpace line)
  match terms[0]? with
  | none => .error .indexOutOfRange
  | some chrom =>
    match terms[1]? with
    | none => .error .indexOutOfRange
    | some t1 =>
      match atoi t1 with
      | .error e => .error e
      | .ok pos =>
        match terms[3]? with
        | none => .error .indexOutOfRange
        | some ref =>
          match terms[4]? with
          | none => .error .indexOutOfRange
          | some alt =>
            if byteLen alt = 1 ∧ byteLen ref = 1 then
              .ok (some ⟨String.mk chrom, pos, String.mk ref, String.mk alt,
                scanGT false terms []⟩)
            else .ok none

/-- The lines that the successive calls `rd.ReadString` return before the end of input, each
with its final newline. Text after the last newline comes back together with `io.EOF`, on
which the loop breaks, so it is not among them. -/
def readLines : List Char → List (List Char)
  | [] => []
  | c :: cs =>
    if c = '\n' then [c] :: readLines cs
    else
      match readLines cs with
      | [] => []
      | l :: ls => (c :: l) :: ls

/-- The read loop over the lines read: a line whose first byte is the comment marker is
skipped, any other line goes through `parseLine`. -/
def decodeLines : List (List Char) → Except Fault (List VCFRecord)
  | [] => .ok []
  | line :: rest =>
    if line.head? = some '#' then decodeLines rest
    else
      match parseLine line with
      | .error e => .error e
      | .ok o =>
        match decodeLines rest with
        | .error e => .error e
        | .ok recs => .ok (o.toList ++ recs)

/-- The function `readVCF` on the text of the file: the records sent on the channel, in
order, or the panic of the goroutine. -/
def readVCF (text : List Char) : Except Fault (List VCFRecord) :=
  decodeLines (readLines text)

/-! ## The decoder and `main` together -/

/-- How a run of the program ends. The decoder runs in a goroutine of its own and hands each
record to `main` over an unbuffered channel; a panic of either of the two stops the
process. -/
inductive Outcome where
  /-- `main` leaves its loop and its final `compute` with these accumulators, and goes on to
  write the table; the decoder has ended, or stays blocked on a send. -/
  | completes (acc : Acc)
  /-- A panic of `main` or of the decoder stops the process. -/
  | aborts
  /-- `main` has left its loop by the `break` and gets to the table with these accumulators,
  while the decoder, reading on, is on its way to a panic: which of the two comes first is
  not determined. -/
  | races (acc : Acc)
deriving DecidableEq

/-- The decoder after `main` has left its loop by the `break`: reading on from the given
lines, does it panic before it blocks on its next send `c <- rec` (which nobody receives)
or reaches the end of the file? -/
def panicsBeforeSend : List (List Char) → Bool
  | [] => false
  | line :: rest =>
    if line.head? = some '#' then panicsBeforeSend rest
    else
      match parseLine line with
      | .error _ => true
      | .ok (some _) => false
      | .ok none => panicsBeforeSend rest

/-- The read loop of the decoder coupled with the loop of `main` (lines 29 to 41): the
decoder reads a line only while `main` is still receiving; each record it sends is handled
by the body of the loop of `main` before the next one is sent; at the end of the file the
channel is closed and `main` makes its final call of `compute`. -/
def pipeline (maxl regionStart regionEnd : Int) : List (List Char) → State → Outcome
  | [], st =>
    match compute st.buffer st.acc with
    | .error _ => .aborts
    | .ok acc => .completes acc
  | line :: rest, st =>
    if line.head? = some '#' then pipeline maxl regionStart regionEnd rest st
    else
      match parseLine line with
      | .error _ => .aborts
      | .ok none => pipeline maxl regionStart regionEnd rest st
      | .ok (some r) =>
        match loopBody maxl regionStart regionEnd st r with
        | .error _ => .aborts
        | .ok (some st1) => pipeline maxl regionStart regionEnd rest st1
        | .ok none =>
          match compute st.buffer st.acc with
          | .error _ => .aborts
          | .ok acc => if panicsBeforeSend rest then .races acc else .completes acc

/-- The run of the program on the text of the input file, up to the final `compute`. -/
def program (maxl regionStart regionEnd : Int) (text : List Char) : Outcome :=
  if maxl < 0 then .aborts
  else pipeline maxl regionStart regionEnd (readLines text) (initState maxl)

/-! ## Vocabulary of the statements on the decoder -/

/-- The record, if any, that the decoder emits from the line lies inside the region. -/
def staysInRegion (regionStart regionEnd : Int) (line : List Char) : Bool :=
  match parseLine line with
  | .ok (some r) => decide (regionStart ≤ r.Pos ∧ r.Pos ≤ regionEnd)
  | _ => true

/-- The text made of the given lines, each followed by a newline. -/
def joinLines (lines : List (List Char)) : List Char :=
  (lines.map (fun l => l ++ ['\n'])).flatten

/-- A well-formed data line: it neither starts nor ends with white space, it has at least five
tab-separated fields, its second field is a decimal integer within the range of `int`, and
its fourth and fifth fields (the alleles) are made of ASCII characters. -/
def WellFormedData (l : List Char) : Prop :=
  (∀ c ∈ l.head?, isSpace c = false) ∧ (∀ c ∈ l.getLast?, isSpace c = false) ∧
  5 ≤ (splitTab l).length ∧ ((splitTab l)[1]?.bind Atoi).isSome = true ∧
  (∀ f ∈ (splitTab l)[3]?, ∀ c ∈ f, c.toNat < 128) ∧
  (∀ f ∈ (splitTab l)[4]?, ∀ c ∈ f, c.toNat < 128)

instance (l : List Char) : Decidable (WellFormedData l) := by
  unfold WellFormedData; infer_instance

/-- A well-formed line, without its newline: a comment line, or a well-formed data line. -/
def WellFormedLine (l : List Char) : Prop :=
  '\n' ∉ l ∧ (l.head? = some '#' ∨ WellFormedData l)

instance (l : List Char) : Decidable (WellFormedLine l) := by
  unfold WellFormedLine; infer_instance

/-- The lines that the SNP filter keeps: those that do not begin with the comment marker and
whose fourth and fifth tab-separated fields are both exactly one character long. -/
def isSnpLine (l : List Char) : Bool :=
  decide (l.head? ≠ some '#') && decide ((splitTab l)[3]?.map List.length = some 1) &&
    decide ((splitTab l)[4]?.map List.length = some 1)

/-- The record `r` carries the leading fields of the line `l`: contig, position, reference
and alternate allele. -/
def Describes (l : List Char) (r : VCFRecord) : Prop :=
  (splitTab l)[0]? = some r.Chrom.data ∧ (splitTab l)[1]?.bind Atoi = some r.Pos ∧
  (splitTab l)[3]? = some r.Ref.data ∧ (splitTab l)[4]? = some r.Alt.data

/-- The genotype calls as the claim words them: the symbols of all the fields behind the
first field equal to `GT`, without the separator `|`. -/
def gtClaimed (fields : List (List Char)) : List Char :=
  (((fields.dropWhile (fun t => decide (t ≠ ['G', 'T']))).drop 1).flatten).filter
    (fun c => decide (c ≠ '|'))

/-- The genotype calls as the decoder gathers them: the runes, each reduced to its low eight
bits, of all the fields behind the first field equal to `GT` that are not themselves equal
to `GT`, without the separator `|`. -/
def gtGathered (fields : List (List Char)) : List Char :=
  (((((fields.dropWhile (fun t => decide (t ≠ ['G', 'T']))).drop 1).filter
    (fun t => decide (t ≠ ['G', 'T']))).flatten).filter (fun c => decide (c ≠ '|'))).map lowByte

/-! ## Lemmas on the pair counter and on `compute` -/

theorem addGTs_ok (a : List Char) : ∀ (b : List Char) (nc : NuclCov), a.length ≤ b.length →
    nc.Alphabet = ['0', '1'] →
    addGTs nc a b = .ok ⟨nc.Alphabet, nc.xy + xyCount a b, nc.n + nCount a b⟩ := by
  induction a with
  | nil => intro b nc _ _; simp [addGTs, xyCount, nCount]
  | cons x a ih =>
    intro b nc hlen halpha
    cases b with
    | nil => simp at hlen
    | cons y b =>
      have hlen1 : a.length ≤ b.length := by simpa using hlen
      have key := ih b (nc.Add x y) hlen1 (by unfold NuclCov.Add; split <;> simp [halpha])
      rw [addGTs, key]
      unfold NuclCov.Add xyCount nCount
      simp only [halpha, List.zip_cons_cons, List.countP_cons]
      by_cases hv : x ∈ ['0', '1'] ∧ y ∈ ['0', '1']
      · by_cases h1 : x = '1' ∧ y = '1'
        · simp [hv, h1]; omega
        · simp [hv, h1]; omega
      · have h1 : ¬ (x = '1' ∧ y = '1') := by
          rintro ⟨hx, hy⟩; apply hv; subst hx; subst hy; simp
        have hv1 : ¬ ((x = '0' ∨ x = '1') ∧ (y = '0' ∨ y = '1')) := by simpa using hv
        simp [hv1, h1, halpha]

theorem addGTs_error (a : List Char) : ∀ (b : List Char) (nc : NuclCov), b.length < a.length →
    addGTs nc a b = .error .indexOutOfRange := by
  induction a with
  | nil => intro b nc h; simp at h
  | cons x a ih =>
    intro b nc h
    cases b with
    | nil => rfl
    | cons y b => rw [addGTs]; exact ih b _ (by simpa using h)

theorem xyCount_le_nCount (a b : List Char) : xyCount a b ≤ nCount a b := by
  unfold xyCount nCount
  apply List.countP_mono_left
  intro p _ h
  simp only [decide_eq_true_eq] at h ⊢
  obtain ⟨h1, h2⟩ := h
  rw [h1, h2]; simp

theorem F64.add_nan (x : F64) : x.add .nan = .nan := by
  cases x <;> rfl

theorem F64.zero_add (x : F64) : F64.zero.add x = x := by
  cases x <;> simp [F64.zero, F64.add]

theorem wsub_eq (a b : Int) (h1 : -2 ^ 63 ≤ a - b) (h2 : a - b < 2 ^ 63) :
    wsub a b = a - b := by
  unfold wsub wrap64; omega

theorem wsub_self (a : Int) : wsub a a = 0 := by
  unfold wsub wrap64; omega

theorem wsub_bounds (a b : Int) : -2 ^ 63 ≤ wsub a b ∧ wsub a b < 2 ^ 63 := by
  unfold wsub wrap64; omega

theorem wsub_of_noWrap (s : List VCFRecord) (h : NoWrap s) (a b : VCFRecord) (ha : a ∈ s)
    (hb : b ∈ s) : wsub a.Pos b.Pos = a.Pos - b.Pos := by
  have h1 := h a ha b hb
  have h2 := h b hb a ha
  exact wsub_eq _ _ (by omega) h1

theorem computeAt_ok (f r : VCFRecord) (acc : Acc) (hlen : f.GTs.length ≤ r.GTs.length)
    (h0 : 0 ≤ r.Pos - f.Pos) (h1 : r.Pos - f.Pos < (acc.p2arr.length : Int))
    (h2 : r.Pos - f.Pos < (acc.p2counts.length : Int)) (h63 : r.Pos - f.Pos < 2 ^ 63) :
    computeAt f acc r = .ok
      ⟨acc.p2arr.set (r.Pos - f.Pos).toNat
          ((acc.p2arr.getD (r.Pos - f.Pos).toNat F64.zero).add (pairStat f r)),
       acc.p2counts.set (r.Pos - f.Pos).toNat
          (acc.p2counts.getD (r.Pos - f.Pos).toNat 0 + 1)⟩ := by
  unfold computeAt
  rw [addGTs_ok f.GTs r.GTs (NewNuclCov ['0', '1']) hlen rfl, wsub_eq _ _ (by omega) h63]
  simp [addAt, incAt, h0, h1, h2, NuclCov.P11, NewNuclCov, pairStat]

theorem computeAt_short (f r : VCFRecord) (acc : Acc) (hlen : r.GTs.length < f.GTs.length) :
    computeAt f acc r = .error .indexOutOfRange := by
  unfold computeAt
  rw [addGTs_error f.GTs r.GTs _ hlen]

theorem getD_set_self {α : Type} (l : List α) (i : Nat) (v d : α) (h : i < l.length) :
    (l.set i v).getD i d = v := by
  simp [List.getD_eq_getElem?_getD, List.getElem?_set, h]

theorem getD_set_ne {α : Type} (l : List α) (i j : Nat) (v d : α) (h : i ≠ j) :
    (l.set i v).getD j d = l.getD j d := by
  simp [List.getD_eq_getElem?_getD, List.getElem?_set, h]

theorem hits_cons (f r : VCFRecord) (l : Int) (w : List VCFRecord) :
    hits f l (r :: w) = if r.Pos - f.Pos = l then r :: hits f l w else hits f l w := by
  unfold hits
  by_cases h : r.Pos - f.Pos = l <;> simp [List.filter_cons, h]

theorem computeLoop_spec (f : VCFRecord) (m : Nat) : ∀ (w : List VCFRecord) (acc : Acc),
    acc.p2arr.length = m → acc.p2counts.length = m →
    (∀ r ∈ w, f.GTs.length ≤ r.GTs.length ∧ 0 ≤ r.Pos - f.Pos ∧ r.Pos - f.Pos < (m : Int) ∧
      r.Pos - f.Pos < 2 ^ 63) →
    ∃ acc1, computeLoop f w acc = .ok acc1 ∧ acc1.p2arr.length = m ∧ acc1.p2counts.length = m ∧
      ∀ l : Nat, countAt acc1 l = countAt acc l + ((hits f l w).length : Int) ∧
        sumAt acc1 l = ((hits f l w).map (pairStat f)).foldl F64.add (sumAt acc l) := by
  intro w
  induction w with
  | nil =>
    intro acc ha hc _
    exact ⟨acc, rfl, ha, hc, fun l => by simp [hits]⟩
  | cons r rest ih =>
    intro acc ha hc hw
    obtain ⟨hlen, h0, h1, h63⟩ := hw r (List.mem_cons_self _ _)
    have hstep := computeAt_ok f r acc hlen h0 (by rw [ha]; exact h1) (by rw [hc]; exact h1) h63
    have hidx : (r.Pos - f.Pos).toNat < m := by omega
    obtain ⟨acc2, hrun, ha2, hc2, hcells⟩ := ih
      ⟨acc.p2arr.set (r.Pos - f.Pos).toNat
          ((acc.p2arr.getD (r.Pos - f.Pos).toNat F64.zero).add (pairStat f r)),
       acc.p2counts.set (r.Pos - f.Pos).toNat
          (acc.p2counts.getD (r.Pos - f.Pos).toNat 0 + 1)⟩
      (by simp [ha]) (by simp [hc])
      (fun x hx => hw x (List.mem_cons_of_mem _ hx))
    refine ⟨acc2, ?_, ha2, hc2, ?_⟩
    · rw [computeLoop, hstep]; exact hrun
    · intro l
      obtain ⟨hcnt, hsum⟩ := hcells l
      rw [hcnt, hsum, hits_cons]
      by_cases hl : r.Pos - f.Pos = (l : Int)
      · have hl1 : (r.Pos - f.Pos).toNat = l := by omega
        simp only [hl, if_true, List.length_cons, List.map_cons, List.foldl_cons]
        constructor
        · unfold countAt
          simp only []
          rw [← hl, hl1, getD_set_self _ _ _ _ (by omega)]
          push_cast; ring
        · unfold sumAt
          simp only []
          rw [← hl, hl1, getD_set_self _ _ _ _ (by omega)]
      · have hl1 : (r.Pos - f.Pos).toNat ≠ l := by omega
        simp only [hl, if_false]
        constructor
        · unfold countAt
          simp only []
          rw [getD_set_ne _ _ _ _ _ hl1]
        · unfold sumAt
          simp only []
          rw [getD_set_ne _ _ _ _ _ hl1]

theorem compute_spec (f : VCFRecord) (rest : List VCFRecord) (acc : Acc) (m : Nat)
    (ha : acc.p2arr.length = m) (hc : acc.p2counts.length = m)
    (hw : ∀ r ∈ f :: rest,
      f.GTs.length ≤ r.GTs.length ∧ 0 ≤ r.Pos - f.Pos ∧ r.Pos - f.Pos < (m : Int) ∧
        r.Pos - f.Pos < 2 ^ 63) :
    ∃ acc1, compute (f :: rest) acc = .ok acc1 ∧ acc1.p2arr.length = m ∧
      acc1.p2counts.length = m ∧
      ∀ l : Nat, countAt acc1 l = countAt acc l + (frontHits (f :: rest) l : Int) ∧
        sumAt acc1 l =
          ((hits f l (f :: rest)).map (pairStat f)).foldl F64.add (sumAt acc l) :=
  computeLoop_spec f m (f :: rest) acc ha hc hw

/-! ## Lemmas on the main loop -/

theorem mainLoop_break (maxl rs re : Int) (r : VCFRecord) (t : List VCFRecord)
    (h : r.Pos < rs ∨ r.Pos > re) : ∀ (p : List VCFRecord) (st : State),
    mainLoop maxl rs re (p ++ r :: t) st = mainLoop maxl rs re p st := by
  intro p
  induction p with
  | nil => intro st; simp [mainLoop, loopBody, h]
  | cons x p ih =>
    intro st
    simp only [List.cons_append, mainLoop]
    cases loopBody maxl rs re st x with
    | error e => rfl
    | ok o =>
      cases o with
      | none => rfl
      | some st1 => exact ih st1

theorem winInv_window_lag (maxl : Int) (f : VCFRecord) (b upcoming : List VCFRecord)
    (hinv : WinInv maxl (f :: b) upcoming) :
    ∀ r ∈ f :: b, 0 ≤ r.Pos - f.Pos ∧ r.Pos - f.Pos < maxl ∧ r.Pos - f.Pos < 2 ^ 63 ∧
      wsub r.Pos f.Pos = r.Pos - f.Pos := by
  intro r hr
  obtain ⟨hs, hb, hq⟩ := hinv
  have hqf : f ∈ (f :: b) ++ upcoming := List.mem_append_left _ (List.mem_cons_self _ _)
  have hqr : r ∈ (f :: b) ++ upcoming := List.mem_append_left _ hr
  refine ⟨?_, hb r hr f (List.mem_cons_self _ _), hq r hqr f hqf,
    wsub_of_noWrap _ hq r f hqr hqf⟩
  rcases List.mem_cons.mp hr with rfl | hr1
  · omega
  · have hs1 : NonDecreasing (f :: b) := (List.pairwise_append.mp hs).1
    have := (List.pairwise_cons.mp hs1).1 r hr1
    omega

theorem noWrap_sublist (a b : List VCFRecord) (h : List.Sublist a b) (hb : NoWrap b) :
    NoWrap a := fun x hx y hy => hb x (h.subset hx) y (h.subset hy)

theorem loopBody_winInv (maxl rs re : Int) (st st1 : State) (r : VCFRecord)
    (rest : List VCFRecord) (h1 : 1 ≤ maxl) (hinv : WinInv maxl st.buffer (r :: rest))
    (hstep : loopBody maxl rs re st r = .ok (some st1)) : WinInv maxl st1.buffer rest := by
  obtain ⟨buf, acc⟩ := st
  unfold loopBody at hstep
  simp only [] at hstep hinv
  split at hstep
  · cases hstep
  · cases buf with
    | nil =>
      simp only [List.nil_append] at hstep
      cases hstep
      obtain ⟨hs, _, hq⟩ := hinv
      refine ⟨by simpa using hs, ?_, by simpa using hq⟩
      intro a ha b hb
      simp only [List.mem_singleton] at ha hb
      subst ha; subst hb; omega
    | cons f b =>
      simp only [] at hstep
      have hlag := winInv_window_lag maxl f b _ hinv
      obtain ⟨hs, hb, hq⟩ := hinv
      split at hstep
      · rename_i hnear
        cases hstep
        rw [wsub_of_noWrap _ hq r f (by simp) (by simp)] at hnear
        refine ⟨by simpa using hs, ?_, by simpa using hq⟩
        have hpw := List.pairwise_append.mp hs
        have hle : ∀ a ∈ f :: b, a.Pos ≤ r.Pos := fun a ha =>
          hpw.2.2 a ha r (List.mem_cons_self _ _)
        intro x hx y hy
        rcases List.mem_append.mp hx with hx1 | hx1
        · rcases List.mem_append.mp hy with hy1 | hy1
          · exact hb x hx1 y hy1
          · simp only [List.mem_singleton] at hy1
            subst hy1
            have := hle x hx1
            omega
        · simp only [List.mem_singleton] at hx1
          subst hx1
          rcases List.mem_append.mp hy with hy1 | hy1
          · have := (hlag y hy1).1
            omega
          · simp only [List.mem_singleton] at hy1
            subst hy1; omega
      · cases hc : compute (f :: b) acc with
        | error e => rw [hc] at hstep; cases hstep
        | ok acc1 =>
          rw [hc] at hstep
          cases hstep
          have hsub : List.Sublist (b ++ rest) (f :: b ++ r :: rest) := by
            apply List.Sublist.cons
            exact List.Sublist.append (List.Sublist.refl _) (List.sublist_cons_self _ _)
          exact ⟨List.Pairwise.sublist hsub hs, fun x hx y hy =>
            hb x (List.mem_cons_of_mem _ hx) y (List.mem_cons_of_mem _ hy),
            noWrap_sublist _ _ hsub hq⟩

theorem loopBody_ok (maxl rs re : Int) (n : Nat) (st : State) (r : VCFRecord)
    (rest : List VCFRecord) (h1 : 1 ≤ maxl) (hinv : WinInv maxl st.buffer (r :: rest))
    (hbuf : EqualLen n st.buffer) (hr : r.GTs.length = n)
    (ha : st.acc.p2arr.length = maxl.toNat) (hc : st.acc.p2counts.length = maxl.toNat) :
    loopBody maxl rs re st r = .ok none ∨
    ∃ st1, loopBody maxl rs re st r = .ok (some st1) ∧ EqualLen n st1.buffer ∧
      st1.acc.p2arr.length = maxl.toNat ∧ st1.acc.p2counts.length = maxl.toNat := by
  obtain ⟨buf, acc⟩ := st
  simp only [] at hinv hbuf ha hc
  have happ : EqualLen n (buf ++ [r]) := by
    intro x hx
    rcases List.mem_append.mp hx with hx1 | hx1
    · exact hbuf x hx1
    · simp only [List.mem_singleton] at hx1
      subst hx1; exact hr
  unfold loopBody
  split
  · exact Or.inl rfl
  · right
    cases buf with
    | nil => exact ⟨_, rfl, happ, ha, hc⟩
    | cons f b =>
      simp only []
      split
      · exact ⟨_, rfl, happ, ha, hc⟩
      · have hlag := winInv_window_lag maxl f b _ hinv
        obtain ⟨acc1, hrun, ha1, hc1, _⟩ := compute_spec f b acc maxl.toNat ha hc (by
          intro x hx
          have := hlag x hx
          refine ⟨?_, this.1, by omega, this.2.2.1⟩
          rw [hbuf f (List.mem_cons_self _ _), hbuf x hx])
        rw [hrun]
        exact ⟨_, rfl, fun x hx => hbuf x (List.mem_cons_of_mem _ hx), ha1, hc1⟩

theorem mainLoop_ok (maxl rs re : Int) (n : Nat) (h1 : 1 ≤ maxl) :
    ∀ (s : List VCFRecord) (st : State), WinInv maxl st.buffer s → EqualLen n st.buffer →
    EqualLen n s → st.acc.p2arr.length = maxl.toNat → st.acc.p2counts.length = maxl.toNat →
    ∃ st1, mainLoop maxl rs re s st = .ok st1 ∧ (∃ rest, WinInv maxl st1.buffer rest) ∧
      EqualLen n st1.buffer ∧ st1.acc.p2arr.length = maxl.toNat ∧
      st1.acc.p2counts.length = maxl.toNat := by
  intro s
  induction s with
  | nil => intro st hinv hbuf _ ha hc; exact ⟨st, rfl, ⟨[], hinv⟩, hbuf, ha, hc⟩
  | cons r rest ih =>
    intro st hinv hbuf hs ha hc
    rcases loopBody_ok maxl rs re n st r rest h1 hinv hbuf (hs r (List.mem_cons_self _ _))
      ha hc with hbrk | ⟨st1, hstep, hbuf1, ha1, hc1⟩
    · exact ⟨st, by rw [mainLoop, hbrk], ⟨_, hinv⟩, hbuf, ha, hc⟩
    · obtain ⟨st2, hrun, hrest⟩ := ih st1
        (loopBody_winInv maxl rs re st st1 r rest h1 hinv hstep) hbuf1
        (fun x hx => hs x (List.mem_cons_of_mem _ hx)) ha1 hc1
      exact ⟨st2, by rw [mainLoop, hstep]; exact hrun, hrest⟩

theorem newAcc_len (maxl : Int) :
    (newAcc maxl).p2arr.length = maxl.toNat ∧ (newAcc maxl).p2counts.length = maxl.toNat := by
  simp [newAcc]

theorem countAt_newAcc (maxl : Int) (l : Nat) : countAt (newAcc maxl) l = 0 := by
  unfold countAt newAcc
  simp only [List.getD_eq_getElem?_getD, List.getElem?_replicate]
  split <;> rfl

theorem sumAt_newAcc (maxl : Int) (l : Nat) : sumAt (newAcc maxl) l = F64.zero := by
  unfold sumAt newAcc
  simp only [List.getD_eq_getElem?_getD, List.getElem?_replicate]
  split <;> rfl

theorem mainLoop_no_evict (maxl rs re : Int) (f : VCFRecord) (acc : Acc) :
    ∀ (s b : List VCFRecord),
    (∀ r ∈ s, rs ≤ r.Pos ∧ r.Pos ≤ re ∧ wsub r.Pos f.Pos < maxl) →
    mainLoop maxl rs re s ⟨f :: b, acc⟩ = .ok ⟨f :: b ++ s, acc⟩ := by
  intro s
  induction s with
  | nil => intro b _; simp [mainLoop]
  | cons r rest ih =>
    intro b hs
    obtain ⟨hr1, hr2, hr3⟩ := hs r (List.mem_cons_self _ _)
    have hreg : ¬ (r.Pos < rs ∨ r.Pos > re) := by omega
    have hstep : loopBody maxl rs re ⟨f :: b, acc⟩ r = .ok (some ⟨f :: (b ++ [r]), acc⟩) := by
      simp [loopBody, hreg, hr3]
    rw [mainLoop, hstep]
    simp only []
    rw [ih (b ++ [r]) (fun x hx => hs x (List.mem_cons_of_mem _ hx))]
    simp

theorem run_no_evict (maxl rs re : Int) (f : VCFRecord) (rest : List VCFRecord)
    (h0 : 0 ≤ maxl) (hreg : InRegion rs re (f :: rest))
    (hnear : ∀ r ∈ rest, wsub r.Pos f.Pos < maxl) :
    run maxl rs re (f :: rest) = compute (f :: rest) (newAcc maxl) := by
  have hf := hreg f (List.mem_cons_self _ _)
  have hfreg : ¬ (f.Pos < rs ∨ f.Pos > re) := by omega
  have hstep : loopBody maxl rs re (initState maxl) f = .ok (some ⟨[f], newAcc maxl⟩) := by
    simp [loopBody, hfreg, initState]
  have hloop := mainLoop_no_evict maxl rs re f (newAcc maxl) rest []
    (fun r hr => ⟨(hreg r (List.mem_cons_of_mem _ hr)).1,
      (hreg r (List.mem_cons_of_mem _ hr)).2, hnear r hr⟩)
  unfold run
  rw [if_neg (by omega), mainLoop, hstep]
  simp only []
  rw [hloop]
  simp

theorem winInv_init (maxl : Int) (stream : List VCFRecord) (hs : NonDecreasing stream)
    (hq : NoWrap stream) : WinInv maxl (initState maxl).buffer stream :=
  ⟨by simpa [initState] using hs, fun a ha => by simp [initState] at ha,
    by simpa [initState] using hq⟩

theorem loopStates_winInv (maxl rs re : Int) (h1 : 1 ≤ maxl) :
    ∀ (s : List VCFRecord) (st0 : State), WinInv maxl st0.buffer s →
    ∀ st ∈ loopStates maxl rs re s st0, ∃ rest, WinInv maxl st.buffer rest := by
  intro s
  induction s with
  | nil => intro st0 _ st hst; simp [loopStates] at hst
  | cons r rest ih =>
    intro st0 hinv st hst
    rw [loopStates] at hst
    cases hstep : loopBody maxl rs re st0 r with
    | error e => rw [hstep] at hst; simp at hst
    | ok o =>
      cases o with
      | none => rw [hstep] at hst; simp at hst
      | some st1 =>
        rw [hstep] at hst
        have hinv1 := loopBody_winInv maxl rs re st0 st1 r rest h1 hinv hstep
        rcases List.mem_cons.mp hst with rfl | hst1
        · exact ⟨rest, hinv1⟩
        · exact ih st1 hinv1 st hst1

theorem computeLoop_short (f : VCFRecord) (m : Nat) : ∀ (w : List VCFRecord) (acc : Acc),
    acc.p2arr.length = m → acc.p2counts.length = m →
    (∀ r ∈ w, 0 ≤ r.Pos - f.Pos ∧ r.Pos - f.Pos < (m : Int) ∧ r.Pos - f.Pos < 2 ^ 63) →
    (∃ r ∈ w, r.GTs.length < f.GTs.length) →
    computeLoop f w acc = .error .indexOutOfRange := by
  intro w
  induction w with
  | nil => intro _ _ _ _ h; simp at h
  | cons x rest ih =>
    intro acc ha hc hlag hshort
    rw [computeLoop]
    by_cases hx : x.GTs.length < f.GTs.length
    · rw [computeAt_short f x acc hx]
    · obtain ⟨h0, h1, h63⟩ := hlag x (List.mem_cons_self _ _)
      rw [computeAt_ok f x acc (by omega) h0 (by rw [ha]; exact h1) (by rw [hc]; exact h1) h63]
      simp only []
      apply ih _ (by simp [ha]) (by simp [hc])
        (fun r hr => hlag r (List.mem_cons_of_mem _ hr))
      obtain ⟨r, hr, hrs⟩ := hshort
      rcases List.mem_cons.mp hr with rfl | hr1
      · exact absurd hrs hx
      · exact ⟨r, hr1, hrs⟩

theorem nCount_eq_length (a : List Char) : ∀ (b : List Char), a.length = b.length →
    (∀ c ∈ a, c = '0' ∨ c = '1') → (∀ c ∈ b, c = '0' ∨ c = '1') → nCount a b = a.length := by
  induction a with
  | nil => intro b _ _ _; simp [nCount]
  | cons x a ih =>
    intro b hlen ha hb
    cases b with
    | nil => simp at hlen
    | cons y b =>
      have hx := ha x (List.mem_cons_self _ _)
      have hy := hb y (List.mem_cons_self _ _)
      have key := ih b (by simpa using hlen) (fun c hc => ha c (List.mem_cons_of_mem _ hc))
        (fun c hc => hb c (List.mem_cons_of_mem _ hc))
      unfold nCount at key ⊢
      simp only [List.zip_cons_cons, List.countP_cons, key, List.length_cons]
      simp [hx, hy]

theorem run_no_evict_cells (maxl rs re : Int) (n : Nat) (f : VCFRecord)
    (rest : List VCFRecord) (h1 : 1 ≤ maxl) (hs : NonDecreasing (f :: rest))
    (hreg : InRegion rs re (f :: rest)) (hlen : EqualLen n (f :: rest))
    (hnear : ∀ r ∈ rest, r.Pos - f.Pos < maxl) (hrep : ∀ r ∈ rest, r.Pos - f.Pos < 2 ^ 63) :
    ∃ acc, run maxl rs re (f :: rest) = .ok acc ∧
      ∀ l : Nat, countAt acc l = ((hits f l (f :: rest)).length : Int) ∧
        sumAt acc l = ((hits f l (f :: rest)).map (pairStat f)).foldl F64.add F64.zero := by
  have hlag : ∀ r ∈ f :: rest, f.GTs.length ≤ r.GTs.length ∧ 0 ≤ r.Pos - f.Pos ∧
      r.Pos - f.Pos < (maxl.toNat : Int) ∧ r.Pos - f.Pos < 2 ^ 63 := by
    intro r hr
    refine ⟨by rw [hlen f (List.mem_cons_self _ _), hlen r hr], ?_, ?_, ?_⟩
    · rcases List.mem_cons.mp hr with rfl | hr1
      · omega
      · have := (List.pairwise_cons.mp hs).1 r hr1
        omega
    · rcases List.mem_cons.mp hr with rfl | hr1
      · omega
      · have := hnear r hr1
        omega
    · rcases List.mem_cons.mp hr with rfl | hr1
      · omega
      · exact hrep r hr1
  have hnearw : ∀ r ∈ rest, wsub r.Pos f.Pos < maxl := by
    intro r hr
    have := (List.pairwise_cons.mp hs).1 r hr
    rw [wsub_eq _ _ (by omega) (hrep r hr)]
    exact hnear r hr
  obtain ⟨acc, hrun, _, _, hcells⟩ := compute_spec f rest (newAcc maxl) maxl.toNat
    (newAcc_len maxl).1 (newAcc_len maxl).2 hlag
  refine ⟨acc, by rw [run_no_evict maxl rs re f rest (by omega) hreg hnearw]; exact hrun, ?_⟩
  intro l
  rw [(hcells l).1, (hcells l).2, countAt_newAcc, sumAt_newAcc]
  simp [frontHits]

/-! ## C2: the record that triggers an eviction -/

/-- C2 (the code at the evicting step): when the window is `f :: b` and the incoming record
`r`, inside the region, is at least `maxl` past the front `f` (the difference being a value
of a Go `int`, below `2^63`), a completed step leaves the window `b`: the front is evicted
and `r` itself is not appended. -/
theorem loopBody_evict_drops_record (maxl rs re : Int) (f r : VCFRecord)
    (b : List VCFRecord) (acc : Acc) (st1 : State)
    (hreg : rs ≤ r.Pos ∧ r.Pos ≤ re) (hfar : maxl ≤ r.Pos - f.Pos)
    (hrep : r.Pos - f.Pos < 2 ^ 63)
    (hstep : loopBody maxl rs re ⟨f :: b, acc⟩ r = .ok (some st1)) :
    st1.buffer = b := by
  have hr : ¬ (r.Pos < rs ∨ r.Pos > re) := by omega
  have hf : ¬ (wsub r.Pos f.Pos < maxl) := by
    unfold wsub wrap64; omega
  simp only [loopBody, hr, hf, if_false] at hstep
  cases hc : compute (f :: b) acc with
  | error e => rw [hc] at hstep; cases hstep
  | ok acc1 =>
    rw [hc] at hstep
    cases hstep
    rfl

/-- C2 (failing input): window holding the record at 10, incoming record at 15, `maxl = 5`,
region `[1, 1000]`: the step completes and leaves the window empty, so the record at 15 is
not its last element. -/
theorem loopBody_evict_drops_record_witness :
    ∃ st1, loopBody 5 1 1000 ⟨[mkRec 10 "01"], newAcc 5⟩ (mkRec 15 "01") = .ok (some st1) ∧
      st1.buffer = [] ∧ st1.buffer.getLast? ≠ some (mkRec 15 "01") :=
  ⟨_, rfl,
    loopBody_evict_drops_record 5 1 1000 (mkRec 10 "01") (mkRec 15 "01") [] (newAcc 5) _
      (by decide) (by decide) (by decide) rfl,
    by decide⟩

/-! ## C3 and C4: records outside the region -/

/-- C3 (as stated, refuted): positions 5 and 10 with `regionStart = 8` and `maxl = 3`. The
run leaves every cell untouched, `count[0] = 0`, while the run on the stream without the
record at 5 ends with `count[0] = 1`. -/
theorem run_below_regionStart_not_skipped :
    run 3 8 1000 [mkRec 5 "01", mkRec 10 "01"] = .ok (newAcc 3) ∧
    countAt (newAcc 3) 0 = 0 ∧
    ∃ acc, run 3 8 1000 ([mkRec 5 "01", mkRec 10 "01"].filter (fun r => decide (8 ≤ r.Pos)))
      = .ok acc ∧ countAt acc 0 = 1 :=
  ⟨rfl, by decide, _, rfl, by decide⟩

/-- C3 (amended): a record below `regionStart` ends the consumption of the stream, exactly as
a record above `regionEnd` does: the run on `p ++ [r] ++ t` gives what the run on `p` gives,
whatever `t` holds. -/
theorem run_stops_below_regionStart (maxl rs re : Int) (p t : List VCFRecord) (r : VCFRecord)
    (h : r.Pos < rs) : run maxl rs re (p ++ r :: t) = run maxl rs re p := by
  unfold run
  rw [mainLoop_break maxl rs re r t (Or.inl h)]

/-- C3 (amended), at positions 9, 5, 10 with `regionStart = 8`. -/
theorem run_stops_below_regionStart_witness :
    run 3 8 1000 ([mkRec 9 "01"] ++ mkRec 5 "01" :: [mkRec 10 "01"]) =
      run 3 8 1000 [mkRec 9 "01"] :=
  run_stops_below_regionStart 3 8 1000 [mkRec 9 "01"] [mkRec 10 "01"] (mkRec 5 "01")
    (by decide)

/-- C4: a record above `regionEnd` ends the consumption of the stream for good: the run on
`p ++ [r] ++ t` gives what the run on `p` alone gives (the same arrays, or the same fault),
whatever `t` holds, records back inside the region included. -/
theorem run_stops_above_regionEnd (maxl rs re : Int) (p t : List VCFRecord) (r : VCFRecord)
    (h : re < r.Pos) : run maxl rs re (p ++ r :: t) = run maxl rs re p := by
  unfold run
  rw [mainLoop_break maxl rs re r t (Or.inr h)]

/-- C4, at positions 5, 6, then 11 above `regionEnd = 10`, then 7 and 8 back inside. -/
theorem run_stops_above_regionEnd_witness :
    run 3 1 10 ([mkRec 5 "01", mkRec 6 "11"] ++ mkRec 11 "01" :: [mkRec 7 "01", mkRec 8 "11"]) =
      run 3 1 10 [mkRec 5 "01", mkRec 6 "11"] :=
  run_stops_above_regionEnd 3 1 10 [mkRec 5 "01", mkRec 6 "11"]
    [mkRec 7 "01", mkRec 8 "11"] (mkRec 11 "01") (by decide)

/-! ## C5: the flush at end of stream -/

/-- C5 (as stated, refuted): positions 1, 2, 3 with `maxl = 5`: no eviction occurs, the three
records are all still in the window when the stream ends, and the run ends with
`count[0] = 1`, not 3. And at the in-region, non-decreasing positions `-5·10^18`, `5·10^18`
with `maxl = 3`, the difference wraps around to a negative value, the second record joins
the window, and the final call of `compute` stops with an index out of range: nothing is
accumulated. -/
theorem run_tail_not_drained :
    (∃ st acc,
      mainLoop 5 1 1000 [mkRec 1 "01", mkRec 2 "11", mkRec 3 "10"] (initState 5) = .ok st ∧
      st.buffer = [mkRec 1 "01", mkRec 2 "11", mkRec 3 "10"] ∧
      run 5 1 1000 [mkRec 1 "01", mkRec 2 "11", mkRec 3 "10"] = .ok acc ∧ countAt acc 0 = 1) ∧
    NonDecreasing farApart ∧
    InRegion (-5000000000000000000) 5000000000000000000 farApart ∧
    run 3 (-5000000000000000000) 5000000000000000000 farApart = .error .indexOutOfRange :=
  ⟨⟨_, _, rfl, rfl, rfl, by decide⟩, by decide, by decide, rfl⟩

/-- C5 (amended): for a stream with non-decreasing positions no two of which are `2^63` or
more apart, equal-length genotype vectors and `maxl ≥ 1`, the loop completes in a state `st`,
the run completes, and the final call of
`compute` on the remaining window adds to every `count[l]` the number of window records at
distance `l` from the window front: only the pairs of the front are accumulated. When in
addition the stream is inside the region and no eviction occurs, the final `count[0]` is the
number of records at the position of the first record. -/
theorem run_final_flush_front_only (maxl rs re : Int) (n : Nat) (stream : List VCFRecord)
    (h1 : 1 ≤ maxl) (hs : NonDecreasing stream) (hq : NoWrap stream)
    (hlen : EqualLen n stream) :
    ∃ st acc, mainLoop maxl rs re stream (initState maxl) = .ok st ∧
      run maxl rs re stream = .ok acc ∧
      (∀ l : Nat, countAt acc l = countAt st.acc l + (frontHits st.buffer l : Int)) ∧
      (InRegion rs re stream → (∀ f ∈ stream.head?, ∀ r ∈ stream, r.Pos - f.Pos < maxl) →
        countAt acc 0 = (frontHits stream 0 : Int)) := by
  obtain ⟨st, hloop, ⟨up, hinv⟩, hbuf, ha, hc⟩ := mainLoop_ok maxl rs re n h1 stream
    (initState maxl) (winInv_init maxl stream hs hq) (by intro r hr; simp [initState] at hr)
    hlen (newAcc_len maxl).1 (newAcc_len maxl).2
  have hrun : run maxl rs re stream = compute st.buffer st.acc := by
    unfold run
    rw [if_neg (by omega), hloop]
  obtain ⟨buf, a0⟩ := st
  simp only [] at hinv hbuf ha hc hrun
  have hflush : ∃ acc, compute buf a0 = .ok acc ∧
      ∀ l : Nat, countAt acc l = countAt a0 l + (frontHits buf l : Int) := by
    cases buf with
    | nil => exact ⟨a0, rfl, fun l => by simp [frontHits]⟩
    | cons f b =>
      have hlag := winInv_window_lag maxl f b up hinv
      obtain ⟨acc, hcomp, _, _, hcells⟩ := compute_spec f b a0 maxl.toNat ha hc (by
        intro x hx
        have := hlag x hx
        refine ⟨?_, this.1, by omega, this.2.2.1⟩
        rw [hbuf f (List.mem_cons_self _ _), hbuf x hx])
      exact ⟨acc, hcomp, fun l => (hcells l).1⟩
  obtain ⟨acc, hcomp, hcells⟩ := hflush
  refine ⟨⟨buf, a0⟩, acc, hloop, by rw [hrun, hcomp], hcells, ?_⟩
  intro hreg hnear
  cases stream with
  | nil =>
    simp only [mainLoop, initState] at hloop
    cases hloop
    simp only [compute] at hcomp
    cases hcomp
    simp [frontHits, countAt_newAcc]
  | cons f rest =>
    obtain ⟨acc1, hrun1, hcells1⟩ := run_no_evict_cells maxl rs re n f rest h1 hs hreg
      hlen (fun r hr => hnear f (by simp) r (List.mem_cons_of_mem _ hr))
      (fun r hr => hq r (List.mem_cons_of_mem _ hr) f (List.mem_cons_self _ _))
    rw [hrun, hcomp] at hrun1
    cases hrun1
    rw [(hcells1 0).1]
    simp [frontHits]

/-- C5 (amended), at positions 1, 1, 2, 3 with `maxl = 5` (no eviction): the run completes
and ends with `count[0] = 2`, the two records at position 1, not 4. -/
theorem run_final_flush_front_only_witness :
    ∃ st acc, mainLoop 5 1 1000 [mkRec 1 "01", mkRec 1 "11", mkRec 2 "11", mkRec 3 "10"]
        (initState 5) = .ok st ∧
      run 5 1 1000 [mkRec 1 "01", mkRec 1 "11", mkRec 2 "11", mkRec 3 "10"] = .ok acc ∧
      (∀ l : Nat, countAt acc l = countAt st.acc l + (frontHits st.buffer l : Int)) ∧
      countAt acc 0 = 2 := by
  obtain ⟨st, acc, hloop, hrun, hflush, hfirst⟩ := run_final_flush_front_only 5 1 1000 2
    [mkRec 1 "01", mkRec 1 "11", mkRec 2 "11", mkRec 3 "10"] (by decide) (by decide) (by decide)
    (by decide)
  refine ⟨st, acc, hloop, hrun, hflush, ?_⟩
  rw [hfirst (by decide) (by decide)]
  decide

/-! ## C6: the window bound -/

/-- C6 (as stated, refuted): at the non-decreasing positions `-5·10^18`, `5·10^18` with
`maxl = 3`, the difference `10^19` of line 33 wraps around to a negative value, which is
below `maxl`: the second record is appended, and after the second step the window holds two
records that are `10^19` apart. -/
theorem window_holds_far_records :
    NonDecreasing farApart ∧
    ∃ st ∈ loopStates 3 (-5000000000000000000) 5000000000000000000 farApart (initState 3),
      st.buffer = farApart ∧
      ∃ a ∈ st.buffer, ∃ b ∈ st.buffer, a.Pos - b.Pos = 10000000000000000000 ∧
        ¬ (a.Pos - b.Pos < 3) :=
  ⟨by decide, ⟨farApart, newAcc 3⟩, by decide, rfl,
    mkRec 5000000000000000000 "01", by decide, mkRec (-5000000000000000000) "01", by decide,
    by decide, by decide⟩

/-- C6 (amended): for a stream with non-decreasing positions no two of which are `2^63` or
more apart, and `maxl ≥ 1`, in every state reached after a completed iteration of the main
loop, any two records held in the window are less than `maxl` apart. -/
theorem loopStates_window_bound (maxl rs re : Int) (stream : List VCFRecord)
    (h1 : 1 ≤ maxl) (hs : NonDecreasing stream) (hq : NoWrap stream) :
    ∀ st ∈ loopStates maxl rs re stream (initState maxl),
      ∀ a ∈ st.buffer, ∀ b ∈ st.buffer, a.Pos - b.Pos < maxl := by
  intro st hst
  obtain ⟨rest, hinv⟩ := loopStates_winInv maxl rs re h1 stream (initState maxl)
    (winInv_init maxl stream hs hq) st hst
  exact hinv.2.1

/-- C6 (amended), at positions 10, 11, 13, 14, 14, 20 with `maxl = 3`: six iterations
complete. -/
theorem loopStates_window_bound_witness :
    (loopStates 3 1 1000 [mkRec 10 "01", mkRec 11 "11", mkRec 13 "10", mkRec 14 "00",
      mkRec 14 "01", mkRec 20 "11"] (initState 3)).length = 6 ∧
    ∀ st ∈ loopStates 3 1 1000 [mkRec 10 "01", mkRec 11 "11", mkRec 13 "10", mkRec 14 "00",
      mkRec 14 "01", mkRec 20 "11"] (initState 3),
      ∀ a ∈ st.buffer, ∀ b ∈ st.buffer, a.Pos - b.Pos < 3 :=
  ⟨by rfl, loopStates_window_bound 3 1 1000 _ (by decide) (by decide) (by decide)⟩

/-! ## C7: a pair with `n = 0` -/

/-- C7 (as stated, refuted): the window holding one record with an empty genotype vector.
Its self-pair has `n = 0`; `compute` raises no fault, but `count[0]` goes from 0 to 1 and
`sum[0]` goes from `0.0` to `NaN`. -/
theorem compute_n_zero_changes_cells :
    ∃ nc acc1, addGTs (NewNuclCov ['0', '1']) (mkRec 10 "").GTs (mkRec 10 "").GTs = .ok nc ∧
      (nc.P11 0).2 = 0 ∧ compute [mkRec 10 ""] (newAcc 3) = .ok acc1 ∧
      countAt (newAcc 3) 0 = 0 ∧ countAt acc1 0 = 1 ∧
      sumAt (newAcc 3) 0 = F64.zero ∧ sumAt acc1 0 = F64.nan :=
  ⟨_, _, rfl, rfl, rfl, by decide, by decide, by rfl, by rfl⟩

/-- C7 (amended): when the genotype loop for the pair `(front, r)` completes with a counter
whose `n` is 0 and the lag of the pair is a valid index (of arrays that, as every Go slice,
have at most `2^63` cells), the iteration of `compute` for that pair raises no fault, still
increases `count[lag]` by one, and leaves `sum[lag]` at `NaN`, the value of `0 / 0`. -/
theorem computeAt_n_zero (f r : VCFRecord) (acc : Acc) (nc : NuclCov)
    (hnc : addGTs (NewNuclCov ['0', '1']) f.GTs r.GTs = .ok nc) (hn : (nc.P11 0).2 = 0)
    (h0 : 0 ≤ r.Pos - f.Pos) (h1 : r.Pos - f.Pos < (acc.p2arr.length : Int))
    (h2 : r.Pos - f.Pos < (acc.p2counts.length : Int))
    (hcap : (acc.p2arr.length : Int) ≤ 2 ^ 63) :
    ∃ acc1, computeAt f acc r = .ok acc1 ∧
      countAt acc1 (r.Pos - f.Pos).toNat = countAt acc (r.Pos - f.Pos).toNat + 1 ∧
      sumAt acc1 (r.Pos - f.Pos).toNat = F64.nan := by
  have hlen : f.GTs.length ≤ r.GTs.length := by
    by_contra hcon
    rw [addGTs_error f.GTs r.GTs _ (by omega)] at hnc
    cases hnc
  rw [addGTs_ok f.GTs r.GTs _ hlen rfl] at hnc
  cases hnc
  simp only [NuclCov.P11, NewNuclCov, Nat.zero_add] at hn
  have hxy : xyCount f.GTs r.GTs = 0 := by
    have := xyCount_le_nCount f.GTs r.GTs
    omega
  refine ⟨_, computeAt_ok f r acc hlen h0 h1 h2 (by omega), ?_, ?_⟩
  · unfold countAt
    simp only []
    rw [getD_set_self _ _ _ _ (by omega)]
  · unfold sumAt
    simp only []
    rw [getD_set_self _ _ _ _ (by omega)]
    simp [pairStat, hn, hxy, fdiv, F64.add_nan]

/-- C7 (amended), for the pair of a record at 10 with vector `..` and a record at 12 with
vector `.1`, where no slot holds a call on both sides. -/
theorem computeAt_n_zero_witness :
    ∃ acc1, computeAt (mkRec 10 "..") (newAcc 3) (mkRec 12 ".1") = .ok acc1 ∧
      countAt acc1 ((mkRec 12 ".1").Pos - (mkRec 10 "..").Pos).toNat =
        countAt (newAcc 3) ((mkRec 12 ".1").Pos - (mkRec 10 "..").Pos).toNat + 1 ∧
      sumAt acc1 ((mkRec 12 ".1").Pos - (mkRec 10 "..").Pos).toNat = F64.nan :=
  computeAt_n_zero (mkRec 10 "..") (mkRec 12 ".1") (newAcc 3) ⟨['0', '1'], 0, 0⟩ rfl rfl
    (by decide) (by decide) (by decide) (by decide)

/-! ## C8: records with an empty genotype vector -/

/-- C8 (as stated, refuted): positions 10 and 11 inside the region, the first record with
vector `01`, the second with an empty vector, `maxl = 3`: the final call of `compute` stops
with an index out of range. -/
theorem run_empty_vector_faults :
    NonDecreasing [mkRec 10 "01", mkRec 11 ""] ∧ InRegion 1 1000 [mkRec 10 "01", mkRec 11 ""] ∧
    run 3 1 1000 [mkRec 10 "01", mkRec 11 ""] = .error .indexOutOfRange :=
  ⟨by decide, by decide, rfl⟩

/-- C8 (amended): for a window `f :: rest` whose lags are valid indices of both arrays (which,
as every Go slice, have at most `2^63` cells), `compute` completes whenever no record of the window has a genotype vector shorter than that
of the front `f` (in particular when the vector of `f` is empty), and stops with an index out
of range whenever some record of the window has a shorter vector than the front (in
particular an empty vector behind a front with a non-empty one). -/
theorem compute_completes_when_front_shortest (f : VCFRecord) (rest : List VCFRecord)
    (acc : Acc) (m : Nat) (ha : acc.p2arr.length = m) (hc : acc.p2counts.length = m)
    (hlag : ∀ r ∈ f :: rest, 0 ≤ r.Pos - f.Pos ∧ r.Pos - f.Pos < (m : Int))
    (hm : (m : Int) ≤ 2 ^ 63) :
    ((∀ r ∈ rest, f.GTs.length ≤ r.GTs.length) → ∃ acc1, compute (f :: rest) acc = .ok acc1) ∧
    ((∃ r ∈ rest, r.GTs.length < f.GTs.length) →
      compute (f :: rest) acc = .error .indexOutOfRange) := by
  constructor
  · intro hall
    obtain ⟨acc1, hrun, _⟩ := compute_spec f rest acc m ha hc (by
      intro r hr
      have hl := hlag r hr
      refine ⟨?_, hl.1, hl.2, by omega⟩
      rcases List.mem_cons.mp hr with rfl | hr1
      · exact le_refl _
      · exact hall r hr1)
    exact ⟨acc1, hrun⟩
  · rintro ⟨r, hr, hshort⟩
    exact computeLoop_short f m (f :: rest) acc ha hc
      (fun x hx => ⟨(hlag x hx).1, (hlag x hx).2, by have := (hlag x hx).2; omega⟩)
      ⟨r, List.mem_cons_of_mem _ hr, hshort⟩

/-- C8 (amended), for the window of an empty-vector front at 10 followed by records with
vectors `01` and `11`, and for the window of the front `01` followed by an empty vector. -/
theorem compute_completes_when_front_shortest_witness :
    (∃ acc1, compute [mkRec 10 "", mkRec 11 "01", mkRec 12 "11"] (newAcc 3) = .ok acc1) ∧
    compute [mkRec 10 "01", mkRec 11 ""] (newAcc 3) = .error .indexOutOfRange :=
  ⟨(compute_completes_when_front_shortest (mkRec 10 "") [mkRec 11 "01", mkRec 12 "11"]
      (newAcc 3) 3 rfl rfl (by decide) (by decide)).1 (by decide),
   (compute_completes_when_front_shortest (mkRec 10 "01") [mkRec 11 ""]
      (newAcc 3) 3 rfl rfl (by decide) (by decide)).2 (by decide)⟩

/-! ## C9: what one call of `compute` adds -/

/-- C9: for a window `f :: rest` with genotype vectors of equal length and every lag
`W[i].Pos - W[0].Pos` in `0 .. m-1`, with both arrays of length `m` (at most `2^63`, as for
every Go slice), `compute` completes and,
for every lag `l`, `count[l]` grows by the number of window records at distance `l` from the
front, `sum[l]` receives, in window order, the per-pair statistics of the front with exactly
those records, and both cells are unchanged when no record is at distance `l`. -/
theorem compute_accumulates (f : VCFRecord) (rest : List VCFRecord) (acc : Acc) (m n : Nat)
    (ha : acc.p2arr.length = m) (hc : acc.p2counts.length = m)
    (hlen : EqualLen n (f :: rest))
    (hlag : ∀ r ∈ f :: rest, 0 ≤ r.Pos - f.Pos ∧ r.Pos - f.Pos < (m : Int))
    (hm : (m : Int) ≤ 2 ^ 63) :
    ∃ acc1, compute (f :: rest) acc = .ok acc1 ∧
      ∀ l : Nat,
        countAt acc1 l = countAt acc l + ((hits f l (f :: rest)).length : Int) ∧
        sumAt acc1 l = ((hits f l (f :: rest)).map (pairStat f)).foldl F64.add (sumAt acc l) ∧
        (hits f l (f :: rest) = [] → countAt acc1 l = countAt acc l ∧ sumAt acc1 l = sumAt acc l) := by
  obtain ⟨acc1, hrun, _, _, hcells⟩ := compute_spec f rest acc m ha hc (by
    intro r hr
    have hl := hlag r hr
    exact ⟨by rw [hlen f (List.mem_cons_self _ _), hlen r hr], hl.1, hl.2, by omega⟩)
  refine ⟨acc1, hrun, fun l => ⟨(hcells l).1, (hcells l).2, ?_⟩⟩
  intro hnone
  have h1 := (hcells l).1
  have h2 := (hcells l).2
  simp only [frontHits] at h1
  rw [hnone] at h1 h2
  exact ⟨by simpa using h1, by simpa using h2⟩

/-- C9, for the window at positions 10, 10, 12 with vectors `1100`, `1010`, `1110` and arrays
of length 3: `count` becomes 2, 0, 1 and `sum` becomes 0.5 + 0.25, 0, 0.5. -/
theorem compute_accumulates_witness :
    ∃ acc1, compute [mkRec 10 "1100", mkRec 10 "1010", mkRec 12 "1110"] (newAcc 3) = .ok acc1 ∧
      countAt acc1 0 = 2 ∧ countAt acc1 1 = 0 ∧ countAt acc1 2 = 1 ∧
      sumAt acc1 0 = .fin (3 / 4) ∧ sumAt acc1 1 = .fin 0 ∧ sumAt acc1 2 = .fin (1 / 2) := by
  obtain ⟨acc1, hrun, hcells⟩ := compute_accumulates (mkRec 10 "1100")
    [mkRec 10 "1010", mkRec 12 "1110"] (newAcc 3) 3 4 rfl rfl (by decide) (by decide)
    (by decide)
  refine ⟨acc1, hrun, ?_, ?_, ?_, ?_, ?_, ?_⟩
  · rw [(hcells 0).1]; decide
  · rw [(hcells 1).1]; decide
  · rw [(hcells 2).1]; decide
  · rw [(hcells 0).2.1, sumAt_newAcc]
    simp [hits, pairStat, mkRec, xyCount, nCount, fdiv, F64.add, F64.zero]
    norm_num
  · rw [(hcells 1).2.1]; rfl
  · rw [(hcells 2).2.1, sumAt_newAcc]
    simp [hits, pairStat, mkRec, xyCount, nCount, fdiv, F64.add, F64.zero]
    norm_num

/-! ## C10: the two-site scenario -/

/-- C10: for a stream of two records `a`, `b` inside the region, with
`0 < b.Pos - a.Pos < maxl` (where `maxl`, a Go `int`, is at most `2^63`) and genotype vectors
of equal length over the symbols `0` and `1`, the run completes with `count[q-p] = 1`, `sum[q-p] = xy / n` where `xy` is the number of slots
holding `1` in both vectors and `n` the number of slots, and `sum[0]` the self-pair statistic
of `a`. -/
theorem run_two_sites (maxl rs re : Int) (a b : VCFRecord)
    (h1 : 0 < b.Pos - a.Pos) (h2 : b.Pos - a.Pos < maxl) (hmax : maxl ≤ 2 ^ 63)
    (hreg : InRegion rs re [a, b]) (hlen : a.GTs.length = b.GTs.length)
    (ha : ∀ c ∈ a.GTs, c = '0' ∨ c = '1') (hb : ∀ c ∈ b.GTs, c = '0' ∨ c = '1') :
    ∃ acc, run maxl rs re [a, b] = .ok acc ∧
      countAt acc (b.Pos - a.Pos).toNat = 1 ∧
      sumAt acc (b.Pos - a.Pos).toNat = fdiv (xyCount a.GTs b.GTs) a.GTs.length ∧
      sumAt acc 0 = pairStat a a := by
  obtain ⟨acc, hrun, hcells⟩ := run_no_evict_cells maxl rs re a.GTs.length a [b] (by omega)
    (by
      unfold NonDecreasing
      simp only [List.pairwise_cons, List.mem_singleton, forall_eq, List.not_mem_nil,
        false_implies, implies_true, List.Pairwise.nil, and_true]
      omega)
    hreg
    (by
      intro r hr
      simp only [List.mem_cons, List.mem_singleton, List.not_mem_nil, or_false] at hr
      rcases hr with rfl | rfl
      · rfl
      · exact hlen.symm)
    (by
      intro r hr
      simp only [List.mem_singleton] at hr
      subst hr; exact h2)
    (by
      intro r hr
      simp only [List.mem_singleton] at hr
      subst hr; omega)
  have hcast : (((b.Pos - a.Pos).toNat : Nat) : Int) = b.Pos - a.Pos := by omega
  have hne : ¬ (a.Pos - a.Pos = b.Pos - a.Pos) := by omega
  have hne0 : ¬ (b.Pos - a.Pos = 0) := by omega
  have hhit : hits a (b.Pos - a.Pos) [a, b] = [b] := by
    rw [hits_cons, if_neg hne, hits_cons, if_pos rfl]; rfl
  have hhit0 : hits a 0 [a, b] = [a] := by
    rw [hits_cons, if_pos (by omega : a.Pos - a.Pos = 0), hits_cons, if_neg hne0]; rfl
  refine ⟨acc, hrun, ?_, ?_, ?_⟩
  · rw [(hcells _).1, hcast, hhit]; rfl
  · rw [(hcells _).2, hcast, hhit]
    simp only [List.map_cons, List.map_nil, List.foldl_cons, List.foldl_nil, F64.zero_add,
      pairStat]
    rw [nCount_eq_length a.GTs b.GTs hlen ha hb]
  · rw [(hcells 0).2]
    simp only [Nat.cast_zero, hhit0, List.map_cons, List.map_nil, List.foldl_cons,
      List.foldl_nil, F64.zero_add]

/-- C10, at positions 10 and 15 with vectors `1100` and `1010` and `maxl = 300`:
`count[5] = 1`, `sum[5] = 0.25`, and the self-pair of the site at 10 gives `sum[0] = 0.5`. -/
theorem run_two_sites_witness :
    ∃ acc, run 300 1 1000 [mkRec 10 "1100", mkRec 15 "1010"] = .ok acc ∧
      countAt acc 5 = 1 ∧ sumAt acc 5 = .fin (1 / 4) ∧ sumAt acc 0 = .fin (1 / 2) := by
  obtain ⟨acc, hrun, hc, hs, hs0⟩ := run_two_sites 300 1 1000 (mkRec 10 "1100")
    (mkRec 15 "1010") (by decide) (by decide) (by decide) (by decide) (by decide) (by decide)
    (by decide)
  refine ⟨acc, hrun, hc, ?_, ?_⟩
  · have h5 : ((mkRec 15 "1010").Pos - (mkRec 10 "1100").Pos).toNat = 5 := by decide
    rw [h5] at hs
    rw [hs]
    simp [mkRec, xyCount, fdiv]
  · rw [hs0]
    simp [pairStat, mkRec, xyCount, nCount, fdiv]
    norm_num

/-! ## Lemmas for the second group of properties -/

theorem computeAt_wok (f r : VCFRecord) (acc : Acc) (hlen : f.GTs.length ≤ r.GTs.length)
    (h0 : 0 ≤ wsub r.Pos f.Pos) (h1 : wsub r.Pos f.Pos < (acc.p2arr.length : Int))
    (h2 : wsub r.Pos f.Pos < (acc.p2counts.length : Int)) :
    computeAt f acc r = .ok
      ⟨acc.p2arr.set (wsub r.Pos f.Pos).toNat
          ((acc.p2arr.getD (wsub r.Pos f.Pos).toNat F64.zero).add (pairStat f r)),
       acc.p2counts.set (wsub r.Pos f.Pos).toNat
          (acc.p2counts.getD (wsub r.Pos f.Pos).toNat 0 + 1)⟩ := by
  unfold computeAt
  rw [addGTs_ok f.GTs r.GTs (NewNuclCov ['0', '1']) hlen rfl]
  simp [addAt, incAt, h0, h1, h2, NuclCov.P11, NewNuclCov, pairStat]

theorem computeAt_inv (f r : VCFRecord) (acc acc1 : Acc) (h : computeAt f acc r = .ok acc1) :
    f.GTs.length ≤ r.GTs.length ∧ 0 ≤ wsub r.Pos f.Pos ∧
    wsub r.Pos f.Pos < (acc.p2arr.length : Int) ∧
    wsub r.Pos f.Pos < (acc.p2counts.length : Int) ∧
    acc1 = ⟨acc.p2arr.set (wsub r.Pos f.Pos).toNat
          ((acc.p2arr.getD (wsub r.Pos f.Pos).toNat F64.zero).add (pairStat f r)),
        acc.p2counts.set (wsub r.Pos f.Pos).toNat
          (acc.p2counts.getD (wsub r.Pos f.Pos).toNat 0 + 1)⟩ := by
  by_cases hlen : f.GTs.length ≤ r.GTs.length
  · by_cases hr : 0 ≤ wsub r.Pos f.Pos ∧ wsub r.Pos f.Pos < (acc.p2arr.length : Int) ∧
        wsub r.Pos f.Pos < (acc.p2counts.length : Int)
    · obtain ⟨h0, h1, h2⟩ := hr
      rw [computeAt_wok f r acc hlen h0 h1 h2] at h
      cases h
      exact ⟨hlen, h0, h1, h2, rfl⟩
    · exfalso
      unfold computeAt at h
      rw [addGTs_ok f.GTs r.GTs (NewNuclCov ['0', '1']) hlen rfl] at h
      simp only [addAt, incAt] at h
      by_cases ha : 0 ≤ wsub r.Pos f.Pos ∧ wsub r.Pos f.Pos < (acc.p2arr.length : Int)
      · by_cases hc : 0 ≤ wsub r.Pos f.Pos ∧ wsub r.Pos f.Pos < (acc.p2counts.length : Int)
        · exact hr ⟨ha.1, ha.2, hc.2⟩
        · simp only [if_pos ha, if_neg hc] at h
          cases h
      · simp only [if_neg ha] at h
        cases h
  · rw [computeAt_short f r acc (by omega)] at h
    cases h

theorem computeAt_countAt (f r : VCFRecord) (acc acc1 : Acc)
    (h : computeAt f acc r = .ok acc1) (l : Nat) :
    countAt acc1 l = countAt acc l + (if wsub r.Pos f.Pos = (l : Int) then 1 else 0) := by
  obtain ⟨_, h0, _, h2, rfl⟩ := computeAt_inv f r acc acc1 h
  unfold countAt
  simp only []
  by_cases hl : wsub r.Pos f.Pos = (l : Int)
  · have hl1 : (wsub r.Pos f.Pos).toNat = l := by omega
    rw [if_pos hl, ← hl1, getD_set_self _ _ _ _ (by omega)]
  · have hl1 : (wsub r.Pos f.Pos).toNat ≠ l := by omega
    rw [if_neg hl, getD_set_ne _ _ _ _ _ hl1]
    simp

theorem computeAt_sumAt (f r : VCFRecord) (acc acc1 : Acc)
    (h : computeAt f acc r = .ok acc1) (l : Nat) :
    sumAt acc1 l =
      if wsub r.Pos f.Pos = (l : Int) then (sumAt acc l).add (pairStat f r)
      else sumAt acc l := by
  obtain ⟨_, h0, h1, _, rfl⟩ := computeAt_inv f r acc acc1 h
  unfold sumAt
  simp only []
  by_cases hl : wsub r.Pos f.Pos = (l : Int)
  · have hl1 : (wsub r.Pos f.Pos).toNat = l := by omega
    rw [if_pos hl, ← hl1, getD_set_self _ _ _ _ (by omega)]
  · have hl1 : (wsub r.Pos f.Pos).toNat ≠ l := by omega
    rw [if_neg hl, getD_set_ne _ _ _ _ _ hl1]

theorem computeLoop_pres (P : Acc → Prop) (Q : VCFRecord → Prop)
    (hstep : ∀ f r acc acc1, Q f → Q r → P acc → computeAt f acc r = .ok acc1 → P acc1)
    (f : VCFRecord) (hf : Q f) : ∀ (w : List VCFRecord) (acc acc1 : Acc),
    (∀ r ∈ w, Q r) → P acc → computeLoop f w acc = .ok acc1 → P acc1 := by
  intro w
  induction w with
  | nil => intro acc acc1 _ hp h; simp only [computeLoop] at h; cases h; exact hp
  | cons x rest ih =>
    intro acc acc1 hq hp h
    rw [computeLoop] at h
    cases hx : computeAt f acc x with
    | error e => rw [hx] at h; cases h
    | ok acc2 =>
      rw [hx] at h
      exact ih acc2 acc1 (fun r hr => hq r (List.mem_cons_of_mem _ hr))
        (hstep f x acc acc2 hf (hq x (List.mem_cons_self _ _)) hp hx) h

theorem compute_pres (P : Acc → Prop) (Q : VCFRecord → Prop)
    (hstep : ∀ f r acc acc1, Q f → Q r → P acc → computeAt f acc r = .ok acc1 → P acc1)
    (w : List VCFRecord) (acc acc1 : Acc) (hq : ∀ r ∈ w, Q r) (hp : P acc)
    (h : compute w acc = .ok acc1) : P acc1 := by
  cases w with
  | nil => simp only [compute] at h; cases h; exact hp
  | cons f b =>
    exact computeLoop_pres P Q hstep f (hq f (List.mem_cons_self _ _)) (f :: b) acc acc1 hq hp h

theorem loopBody_pres (P : Acc → Prop) (Q : VCFRecord → Prop)
    (hstep : ∀ f r acc acc1, Q f → Q r → P acc → computeAt f acc r = .ok acc1 → P acc1)
    (maxl rs re : Int) (st st1 : State) (r : VCFRecord) (hq : ∀ x ∈ st.buffer, Q x)
    (hr : Q r) (hp : P st.acc) (h : loopBody maxl rs re st r = .ok (some st1)) :
    P st1.acc ∧ ∀ x ∈ st1.buffer, Q x := by
  obtain ⟨buf, acc⟩ := st
  simp only [] at hq hp
  have happ : ∀ x ∈ buf ++ [r], Q x := by
    intro x hx
    rcases List.mem_append.mp hx with hx1 | hx1
    · exact hq x hx1
    · simp only [List.mem_singleton] at hx1
      subst hx1; exact hr
  unfold loopBody at h
  simp only [] at h
  split at h
  · cases h
  · cases buf with
    | nil => simp only [] at h; cases h; exact ⟨hp, happ⟩
    | cons f b =>
      simp only [] at h
      split at h
      · cases h; exact ⟨hp, happ⟩
      · cases hc : compute (f :: b) acc with
        | error e => rw [hc] at h; cases h
        | ok acc2 =>
          rw [hc] at h
          cases h
          exact ⟨compute_pres P Q hstep (f :: b) acc acc2 hq hp hc,
            fun x hx => hq x (List.mem_cons_of_mem _ hx)⟩

theorem mainLoop_pres (P : Acc → Prop) (Q : VCFRecord → Prop)
    (hstep : ∀ f r acc acc1, Q f → Q r → P acc → computeAt f acc r = .ok acc1 → P acc1)
    (maxl rs re : Int) : ∀ (s : List VCFRecord) (st st1 : State),
    (∀ x ∈ st.buffer, Q x) → (∀ x ∈ s, Q x) → P st.acc →
    mainLoop maxl rs re s st = .ok st1 → P st1.acc ∧ ∀ x ∈ st1.buffer, Q x := by
  intro s
  induction s with
  | nil => intro st st1 hq _ hp h; simp only [mainLoop] at h; cases h; exact ⟨hp, hq⟩
  | cons r rest ih =>
    intro st st1 hq hs hp h
    rw [mainLoop] at h
    cases hb : loopBody maxl rs re st r with
    | error e => rw [hb] at h; cases h
    | ok o =>
      rw [hb] at h
      cases o with
      | none => simp only [] at h; cases h; exact ⟨hp, hq⟩
      | some st2 =>
        simp only [] at h
        obtain ⟨hp2, hq2⟩ := loopBody_pres P Q hstep maxl rs re st st2 r hq
          (hs r (List.mem_cons_self _ _)) hp hb
        exact ih st2 st1 hq2 (fun x hx => hs x (List.mem_cons_of_mem _ hx)) hp2 h

theorem run_eq_finish (maxl rs re : Int) (stream : List VCFRecord) (acc : Acc)
    (h : run maxl rs re stream = .ok acc) :
    0 ≤ maxl ∧ ∃ st, mainLoop maxl rs re stream (initState maxl) = .ok st ∧
      compute st.buffer st.acc = .ok acc := by
  unfold run at h
  by_cases hm : maxl < 0
  · rw [if_pos hm] at h; cases h
  · rw [if_neg hm] at h
    cases hl : mainLoop maxl rs re stream (initState maxl) with
    | error e => rw [hl] at h; cases h
    | ok st => rw [hl] at h; exact ⟨by omega, st, rfl, h⟩

theorem run_pres (P : Acc → Prop) (Q : VCFRecord → Prop)
    (hstep : ∀ f r acc acc1, Q f → Q r → P acc → computeAt f acc r = .ok acc1 → P acc1)
    (maxl rs re : Int) (stream : List VCFRecord) (acc : Acc) (hs : ∀ x ∈ stream, Q x)
    (hp : P (newAcc maxl)) (h : run maxl rs re stream = .ok acc) : P acc := by
  obtain ⟨_, st, hloop, hfin⟩ := run_eq_finish maxl rs re stream acc h
  obtain ⟨hp1, hq1⟩ := mainLoop_pres P Q hstep maxl rs re stream (initState maxl) st
    (by intro x hx; simp [initState] at hx) hs hp hloop
  exact compute_pres P Q hstep st.buffer st.acc acc hq1 hp1 hfin

theorem count_step_mono (c : Int) (l : Nat) :
    ∀ f r acc acc1, True → True → c ≤ countAt acc l → computeAt f acc r = .ok acc1 →
      c ≤ countAt acc1 l := by
  intro f r acc acc1 _ _ hc h
  rw [computeAt_countAt f r acc acc1 h l]
  split <;> omega

theorem mainLoop_append (maxl rs re : Int) (q : List VCFRecord) :
    ∀ (p : List VCFRecord) (st st2 : State),
    mainLoop maxl rs re (p ++ q) st = .ok st2 →
    ∃ st1, mainLoop maxl rs re p st = .ok st1 ∧
      (st2 = st1 ∨ mainLoop maxl rs re q st1 = .ok st2) := by
  intro p
  induction p with
  | nil => intro st st2 h; exact ⟨st, rfl, Or.inr h⟩
  | cons r rest ih =>
    intro st st2 h
    simp only [List.cons_append, mainLoop] at h ⊢
    cases hb : loopBody maxl rs re st r with
    | error e => rw [hb] at h; cases h
    | ok o =>
      rw [hb] at h
      cases o with
      | none => simp only [] at h ⊢; cases h; exact ⟨st, rfl, Or.inl rfl⟩
      | some st3 => simp only [] at h ⊢; exact ih st3 st2 h

theorem computeLoop_append (f : VCFRecord) (x : List VCFRecord) :
    ∀ (w : List VCFRecord) (acc acc2 : Acc), computeLoop f (w ++ x) acc = .ok acc2 →
    ∃ acc1, computeLoop f w acc = .ok acc1 ∧ computeLoop f x acc1 = .ok acc2 := by
  intro w
  induction w with
  | nil => intro acc acc2 h; exact ⟨acc, rfl, h⟩
  | cons r rest ih =>
    intro acc acc2 h
    simp only [List.cons_append, computeLoop] at h ⊢
    cases hc : computeAt f acc r with
    | error e => rw [hc] at h; cases h
    | ok acc3 => rw [hc] at h; simp only [] at h ⊢; exact ih acc3 acc2 h

theorem compute_snoc_mono (w : List VCFRecord) (r : VCFRecord) (acc acc2 : Acc)
    (h : compute (w ++ [r]) acc = .ok acc2) :
    ∃ acc1, compute w acc = .ok acc1 ∧ ∀ l, countAt acc1 l ≤ countAt acc2 l := by
  cases w with
  | nil =>
    refine ⟨acc, rfl, fun l => ?_⟩
    exact compute_pres (fun a => countAt acc l ≤ countAt a l) (fun _ => True)
      (count_step_mono _ l) _ acc acc2 (fun _ _ => trivial) (le_refl _) h
  | cons f b =>
    obtain ⟨acc1, h1, h2⟩ := computeLoop_append f [r] (f :: b) acc acc2 h
    refine ⟨acc1, h1, fun l => ?_⟩
    exact computeLoop_pres (fun a => countAt acc1 l ≤ countAt a l) (fun _ => True)
      (count_step_mono _ l) f trivial [r] acc1 acc2 (fun _ _ => trivial) (le_refl _) h2

theorem finish_mono (maxl rs re : Int) : ∀ (q : List VCFRecord) (st st2 : State) (a2 : Acc),
    mainLoop maxl rs re q st = .ok st2 → compute st2.buffer st2.acc = .ok a2 →
    ∃ a1, compute st.buffer st.acc = .ok a1 ∧ ∀ l, countAt a1 l ≤ countAt a2 l := by
  intro q
  induction q with
  | nil =>
    intro st st2 a2 h hf
    simp only [mainLoop] at h
    cases h
    exact ⟨a2, hf, fun l => le_refl _⟩
  | cons r rest ih =>
    intro st st2 a2 h hf
    rw [mainLoop] at h
    cases hb : loopBody maxl rs re st r with
    | error e => rw [hb] at h; cases h
    | ok o =>
      rw [hb] at h
      cases o with
      | none => simp only [] at h; cases h; exact ⟨a2, hf, fun l => le_refl _⟩
      | some st3 =>
        simp only [] at h
        obtain ⟨a3, hf3, hle3⟩ := ih st3 st2 a2 h hf
        obtain ⟨buf, acc⟩ := st
        unfold loopBody at hb
        simp only [] at hb
        split at hb
        · cases hb
        · have happ : ∀ st3 : State, st3 = ⟨buf ++ [r], acc⟩ →
              compute st3.buffer st3.acc = .ok a3 →
              ∃ a1, compute buf acc = .ok a1 ∧ ∀ l, countAt a1 l ≤ countAt a2 l := by
            intro st4 he hc
            subst he
            obtain ⟨a1, h1, h2⟩ := compute_snoc_mono buf r acc a3 hc
            exact ⟨a1, h1, fun l => le_trans (h2 l) (hle3 l)⟩
          cases buf with
          | nil => simp only [] at hb; cases hb; exact happ _ rfl hf3
          | cons f b =>
            simp only [] at hb
            split at hb
            · cases hb; exact happ _ rfl hf3
            · cases hc : compute (f :: b) acc with
              | error e => rw [hc] at hb; cases hb
              | ok acc4 =>
                rw [hc] at hb
                cases hb
                refine ⟨acc4, rfl, fun l => le_trans ?_ (hle3 l)⟩
                exact compute_pres (fun a => countAt acc4 l ≤ countAt a l) (fun _ => True)
                  (count_step_mono _ l) b acc4 a3 (fun _ _ => trivial) (le_refl _) hf3

theorem nCount_of_le (a : List Char) : ∀ (b : List Char), a.length ≤ b.length →
    (∀ c ∈ a, c = '0' ∨ c = '1') → (∀ c ∈ b, c = '0' ∨ c = '1') → nCount a b = a.length := by
  induction a with
  | nil => intro b _ _ _; simp [nCount]
  | cons x a ih =>
    intro b hlen ha hb
    cases b with
    | nil => simp at hlen
    | cons y b =>
      have hx := ha x (List.mem_cons_self _ _)
      have hy := hb y (List.mem_cons_self _ _)
      have key := ih b (by simpa using hlen) (fun c hc => ha c (List.mem_cons_of_mem _ hc))
        (fun c hc => hb c (List.mem_cons_of_mem _ hc))
      unfold nCount at key ⊢
      simp only [List.zip_cons_cons, List.countP_cons, key, List.length_cons]
      simp [hx, hy]

theorem pairStat_unit (f r : VCFRecord) (hlen : f.GTs.length ≤ r.GTs.length)
    (hf : f.GTs ≠ [] ∧ ∀ c ∈ f.GTs, c = '0' ∨ c = '1')
    (hr : r.GTs ≠ [] ∧ ∀ c ∈ r.GTs, c = '0' ∨ c = '1') :
    ∃ s : ℚ, pairStat f r = .fin s ∧ 0 ≤ s ∧ s ≤ 1 := by
  have hn : nCount f.GTs r.GTs = f.GTs.length := nCount_of_le _ _ hlen hf.2 hr.2
  have hpos : 0 < f.GTs.length := List.length_pos.mpr hf.1
  have hxy := xyCount_le_nCount f.GTs r.GTs
  rw [hn] at hxy
  refine ⟨(xyCount f.GTs r.GTs : ℚ) / (f.GTs.length : ℚ), ?_, ?_, ?_⟩
  · unfold pairStat fdiv
    rw [hn, if_neg (by omega)]
  · positivity
  · have h1 : (0 : ℚ) < (f.GTs.length : ℚ) := by exact_mod_cast hpos
    rw [div_le_one h1]
    exact_mod_cast hxy

theorem ks_step (f r : VCFRecord) (acc acc1 : Acc)
    (hf : f.GTs ≠ [] ∧ ∀ c ∈ f.GTs, c = '0' ∨ c = '1')
    (hr : r.GTs ≠ [] ∧ ∀ c ∈ r.GTs, c = '0' ∨ c = '1')
    (hp : ∀ l : Nat, ∃ q : ℚ, sumAt acc l = .fin q ∧ 0 ≤ q ∧ q ≤ (countAt acc l : ℚ))
    (h : computeAt f acc r = .ok acc1) :
    ∀ l : Nat, ∃ q : ℚ, sumAt acc1 l = .fin q ∧ 0 ≤ q ∧ q ≤ (countAt acc1 l : ℚ) := by
  intro l
  obtain ⟨q, hq, hq0, hq1⟩ := hp l
  obtain ⟨hlen, _⟩ := computeAt_inv f r acc acc1 h
  obtain ⟨s, hs, hs0, hs1⟩ := pairStat_unit f r hlen hf hr
  rw [computeAt_sumAt f r acc acc1 h l, computeAt_countAt f r acc acc1 h l]
  by_cases hl : wsub r.Pos f.Pos = (l : Int)
  · rw [if_pos hl, if_pos hl, hq, hs]
    refine ⟨q + s, rfl, by linarith, ?_⟩
    push_cast
    linarith
  · rw [if_neg hl, if_neg hl]
    exact ⟨q, hq, hq0, by simpa using hq1⟩

/-! ## C15: the value of Ks -/

/-- C15 (as stated, refuted): a run over one record whose genotype vector is empty (no slot
holds a symbol other than `0` and `1`, and none is missing) ends with `count[0] = 1 > 0`,
`sum[0] = NaN`, and the value `sum[0] / count[0]` of Ks is `NaN`, not a number in `[0, 1]`. -/
theorem ks_of_empty_vector_is_nan :
    ∃ acc, run 3 1 1000 [mkRec 10 ""] = .ok acc ∧ 0 < countAt acc 0 ∧
      sumAt acc 0 = F64.nan ∧ (sumAt acc 0).div (F64.ofInt (countAt acc 0)) = F64.nan :=
  ⟨_, rfl, by decide, by rfl, by rfl⟩

/-- C15 (amended): for every run over records whose genotype vectors are non-empty and use
only the symbols `0` and `1`, if the run completes with `count[0] > 0` then the value
`Ks = sum[0] / count[0]` is a finite number with `0 ≤ Ks ≤ 1` (finite values being exact
rationals). -/
theorem ks_between_zero_and_one (maxl rs re : Int) (stream : List VCFRecord) (acc : Acc)
    (hgt : ∀ r ∈ stream, r.GTs ≠ [] ∧ ∀ c ∈ r.GTs, c = '0' ∨ c = '1')
    (hrun : run maxl rs re stream = .ok acc) (hpos : 0 < countAt acc 0) :
    ∃ k : ℚ, (sumAt acc 0).div (F64.ofInt (countAt acc 0)) = .fin k ∧ 0 ≤ k ∧ k ≤ 1 := by
  have hinv := run_pres
    (fun a => ∀ l : Nat, ∃ q : ℚ, sumAt a l = .fin q ∧ 0 ≤ q ∧ q ≤ (countAt a l : ℚ))
    (fun r => r.GTs ≠ [] ∧ ∀ c ∈ r.GTs, c = '0' ∨ c = '1')
    (fun f r a a1 hf hr hp h => ks_step f r a a1 hf hr hp h)
    maxl rs re stream acc hgt
    (fun l => ⟨0, by rw [sumAt_newAcc]; rfl, le_refl _, by rw [countAt_newAcc]; simp⟩) hrun
  obtain ⟨q, hq, hq0, hq1⟩ := hinv 0
  have hc : (0 : ℚ) < (countAt acc 0 : ℚ) := by exact_mod_cast hpos
  refine ⟨q / (countAt acc 0 : ℚ), ?_, div_nonneg hq0 (le_of_lt hc), (div_le_one hc).mpr hq1⟩
  rw [hq]
  simp only [F64.div, F64.ofInt]
  rw [if_neg (ne_of_gt hc)]

/-- C15 (amended), on positions 10, 12, 20 with vectors `1100`, `1010`, `0110`, `maxl = 5`. -/
theorem ks_between_zero_and_one_witness :
    ∃ acc, run 5 1 1000 [mkRec 10 "1100", mkRec 12 "1010", mkRec 20 "0110"] = .ok acc ∧
      0 < countAt acc 0 ∧
      ∃ k : ℚ, (sumAt acc 0).div (F64.ofInt (countAt acc 0)) = .fin k ∧ 0 ≤ k ∧ k ≤ 1 :=
  ⟨_, rfl, by decide,
    ks_between_zero_and_one 5 1 1000 [mkRec 10 "1100", mkRec 12 "1010", mkRec 20 "0110"] _
      (by decide) rfl (by decide)⟩

/-! ## C17: counts only grow -/

/-- C17: let `maxl ≥ 0`. When the loop completes on a stream `p ++ q`, it completes on the
prefix `p`, and for every lag `l` the count after `p` is at least 0 and at most the count
after `p ++ q`. When the run on `p ++ q` completes, its final count is at least the count of
the loop, the run on `p` completes too, and its final count is at least 0 and at most that of
the run on `p ++ q`. Every completed iteration of the loop and every completed call of
`compute` leaves `count[l]` unchanged or larger. -/
theorem counts_only_grow (maxl rs re : Int) (p q : List VCFRecord) (st2 : State)
    (h0 : 0 ≤ maxl)
    (hloop : mainLoop maxl rs re (p ++ q) (initState maxl) = .ok st2) (l : Nat) :
    (∃ st1, mainLoop maxl rs re p (initState maxl) = .ok st1 ∧
      0 ≤ countAt st1.acc l ∧ countAt st1.acc l ≤ countAt st2.acc l) ∧
    (∀ a2, run maxl rs re (p ++ q) = .ok a2 →
      countAt st2.acc l ≤ countAt a2 l ∧
      ∃ a1, run maxl rs re p = .ok a1 ∧ 0 ≤ countAt a1 l ∧ countAt a1 l ≤ countAt a2 l) ∧
    (∀ st r st1, loopBody maxl rs re st r = .ok (some st1) →
      countAt st.acc l ≤ countAt st1.acc l) ∧
    (∀ w acc acc1, compute w acc = .ok acc1 → countAt acc l ≤ countAt acc1 l) := by
  have hcomp : ∀ w acc acc1, compute w acc = .ok acc1 → countAt acc l ≤ countAt acc1 l :=
    fun w acc acc1 h => compute_pres (fun a => countAt acc l ≤ countAt a l) (fun _ => True)
      (count_step_mono _ l) w acc acc1 (fun _ _ => trivial) (le_refl _) h
  have hmono : ∀ s st st1, mainLoop maxl rs re s st = .ok st1 →
      countAt st.acc l ≤ countAt st1.acc l :=
    fun s st st1 h => (mainLoop_pres (fun a => countAt st.acc l ≤ countAt a l)
      (fun _ => True) (count_step_mono _ l) maxl rs re s st st1 (fun _ _ => trivial)
      (fun _ _ => trivial) (le_refl _) h).1
  obtain ⟨st1, hl1, hcase⟩ := mainLoop_append maxl rs re q p (initState maxl) st2 hloop
  have hz : 0 ≤ countAt st1.acc l := by
    have := hmono p (initState maxl) st1 hl1
    simpa [initState, countAt_newAcc] using this
  have h12 : countAt st1.acc l ≤ countAt st2.acc l := by
    rcases hcase with rfl | hq
    · exact le_refl _
    · exact hmono q st1 st2 hq
  refine ⟨⟨st1, hl1, hz, h12⟩, ?_, ?_, hcomp⟩
  · intro a2 hrun
    obtain ⟨_, st3, hl3, hf2⟩ := run_eq_finish maxl rs re (p ++ q) a2 hrun
    rw [hloop] at hl3
    cases hl3
    have hfin : ∃ a1, compute st1.buffer st1.acc = .ok a1 ∧ countAt a1 l ≤ countAt a2 l := by
      rcases hcase with rfl | hq
      · exact ⟨a2, hf2, le_refl _⟩
      · obtain ⟨a1, h1, h2⟩ := finish_mono maxl rs re q st1 st2 a2 hq hf2
        exact ⟨a1, h1, h2 l⟩
    obtain ⟨a1, hf1, ha12⟩ := hfin
    refine ⟨hcomp _ _ _ hf2, a1, ?_, le_trans hz (hcomp _ _ _ hf1), ha12⟩
    unfold run
    rw [if_neg (by omega), hl1]
    exact hf1
  · intro st r st1 h
    exact (loopBody_pres (fun a => countAt st.acc l ≤ countAt a l) (fun _ => True)
      (count_step_mono _ l) maxl rs re st st1 r (fun _ _ => trivial) trivial (le_refl _) h).1

/-- C17, on the stream of positions 10, 11, 14 followed by 15, 16, with `maxl = 3`, lag 0. -/
theorem counts_only_grow_witness :
    ∃ st2 a2, mainLoop 3 1 1000 ([mkRec 10 "01", mkRec 11 "11", mkRec 14 "10"] ++
        [mkRec 15 "00", mkRec 16 "01"]) (initState 3) = .ok st2 ∧
      run 3 1 1000 ([mkRec 10 "01", mkRec 11 "11", mkRec 14 "10"] ++
        [mkRec 15 "00", mkRec 16 "01"]) = .ok a2 ∧
      (∃ st1, mainLoop 3 1 1000 [mkRec 10 "01", mkRec 11 "11", mkRec 14 "10"]
          (initState 3) = .ok st1 ∧
        0 ≤ countAt st1.acc 0 ∧ countAt st1.acc 0 ≤ countAt st2.acc 0) ∧
      countAt st2.acc 0 ≤ countAt a2 0 ∧
      ∃ a1, run 3 1 1000 [mkRec 10 "01", mkRec 11 "11", mkRec 14 "10"] = .ok a1 ∧
        0 ≤ countAt a1 0 ∧ countAt a1 0 ≤ countAt a2 0 :=
  ⟨_, _, rfl, rfl,
    (counts_only_grow 3 1 1000 [mkRec 10 "01", mkRec 11 "11", mkRec 14 "10"]
      [mkRec 15 "00", mkRec 16 "01"] _ (by decide) rfl 0).1,
    ((counts_only_grow 3 1 1000 [mkRec 10 "01", mkRec 11 "11", mkRec 14 "10"]
      [mkRec 15 "00", mkRec 16 "01"] _ (by decide) rfl 0).2.1 _ rfl).1,
    ((counts_only_grow 3 1 1000 [mkRec 10 "01", mkRec 11 "11", mkRec 14 "10"]
      [mkRec 15 "00", mkRec 16 "01"] _ (by decide) rfl 0).2.1 _ rfl).2⟩

/-! ## C16: the output rows -/

theorem getElem?_eq_some_getD {α : Type} (l : List α) (k : Nat) (d : α) (h : k < l.length) :
    l[k]? = some (l.getD k d) := by
  simp [List.getD_eq_getElem?_getD, List.getElem?_eq_getElem h]

theorem expectedRow_eq (acc : Acc) (m : Nat) :
    expectedRows acc m = ((List.range m).filter (fun k => decide (0 < countAt acc k))).map
      (fun k => if k = 0 then
          (⟨0, (sumAt acc 0).div (F64.ofInt (countAt acc 0)), countAt acc 0, "Ks"⟩ : Row)
        else ⟨k, (sumAt acc k).div (sumAt acc 0), countAt acc k, "P2"⟩) := rfl

theorem rowAt_eq (acc : Acc) (m k : Nat) (ha : acc.p2arr.length = m)
    (hc : acc.p2counts.length = m) (hk : k < m) :
    rowAt acc k = .ok (if 0 < countAt acc k then
      some (if k = 0 then
          (⟨0, (sumAt acc 0).div (F64.ofInt (countAt acc 0)), countAt acc 0, "Ks"⟩ : Row)
        else ⟨k, (sumAt acc k).div (sumAt acc 0), countAt acc k, "P2"⟩)
      else none) := by
  have h0 : 0 < m := by omega
  unfold rowAt
  rw [getElem?_eq_some_getD acc.p2counts k 0 (by omega)]
  simp only []
  by_cases hk0 : k = 0
  · subst hk0
    rw [if_pos rfl, getElem?_eq_some_getD acc.p2arr 0 F64.zero (by omega),
      getElem?_eq_some_getD acc.p2counts 0 0 (by omega)]
    simp only [countAt, sumAt, gt_iff_lt, if_true]
  · rw [if_neg hk0, getElem?_eq_some_getD acc.p2arr k F64.zero (by omega),
      getElem?_eq_some_getD acc.p2arr 0 F64.zero (by omega)]
    simp only [countAt, sumAt, gt_iff_lt, if_neg hk0]

theorem outputLoop_eq (acc : Acc) (m : Nat) (ha : acc.p2arr.length = m)
    (hc : acc.p2counts.length = m) : ∀ (ks : List Nat), (∀ k ∈ ks, k < m) →
    outputLoop acc ks = .ok ((ks.filter (fun k => decide (0 < countAt acc k))).map
      (fun k => if k = 0 then
          (⟨0, (sumAt acc 0).div (F64.ofInt (countAt acc 0)), countAt acc 0, "Ks"⟩ : Row)
        else ⟨k, (sumAt acc k).div (sumAt acc 0), countAt acc k, "P2"⟩)) := by
  intro ks
  induction ks with
  | nil => intro _; rfl
  | cons k ks ih =>
    intro hks
    rw [outputLoop, rowAt_eq acc m k ha hc (hks k (List.mem_cons_self _ _)),
      ih (fun x hx => hks x (List.mem_cons_of_mem _ hx))]
    by_cases hpos : 0 < countAt acc k
    · simp [hpos, List.filter_cons]
    · simp [hpos, List.filter_cons]

/-- C16: for final arrays `sum` and `count` of length `m`, the output loop completes and
writes exactly one row for each lag `k` in `0 .. m-1` with `count[k] > 0`, in ascending
order, and none for the other lags; every row carries `count[k]` as its pair count, the row
of lag 0 has the kind `Ks` and the value `sum[0] / count[0]`, every row of a lag `k > 0` has
the kind `P2` and the value `sum[k] / sum[0]`. -/
theorem outputRows_contract (acc : Acc) (m : Nat) (ha : acc.p2arr.length = m)
    (hc : acc.p2counts.length = m) :
    ∃ rows, outputRows acc = .ok rows ∧
      rows.map (fun row => row.l) =
        (List.range m).filter (fun k => decide (0 < countAt acc k)) ∧
      ∀ row ∈ rows, row.n = countAt acc row.l ∧
        (row.l = 0 → row.t = "Ks" ∧
          row.m = (sumAt acc 0).div (F64.ofInt (countAt acc 0))) ∧
        (row.l ≠ 0 → row.t = "P2" ∧ row.m = (sumAt acc row.l).div (sumAt acc 0)) := by
  refine ⟨expectedRows acc m, ?_, ?_, ?_⟩
  · unfold outputRows
    rw [ha]
    exact outputLoop_eq acc m ha hc (List.range m) (fun k hk => List.mem_range.mp hk)
  · rw [expectedRow_eq, List.map_map]
    conv_rhs => rw [← List.map_id ((List.range m).filter (fun k => decide (0 < countAt acc k)))]
    apply List.map_congr_left
    intro k _
    by_cases hk : k = 0 <;> simp [hk]
  · intro row hrow
    rw [expectedRow_eq] at hrow
    obtain ⟨k, _, rfl⟩ := List.mem_map.mp hrow
    by_cases hk : k = 0
    · subst hk; simp
    · simp [hk]

/-- C16, for `sum = 2, 0, 1, 0` and `count = 4, 0, 2, 0`: two rows, `Ks` at lag 0 with the
value 0.5 and `P2` at lag 2 with the value 0.5. -/
theorem outputRows_contract_witness :
    outputRows ⟨[.fin 2, .fin 0, .fin 1, .fin 0], [4, 0, 2, 0]⟩ =
      .ok [⟨0, .fin (1 / 2), 4, "Ks"⟩, ⟨2, .fin (1 / 2), 2, "P2"⟩] ∧
    ∃ rows, outputRows ⟨[.fin 2, .fin 0, .fin 1, .fin 0], [4, 0, 2, 0]⟩ = .ok rows ∧
      rows.map (fun row => row.l) = (List.range 4).filter (fun k =>
        decide (0 < countAt ⟨[.fin 2, .fin 0, .fin 1, .fin 0], [4, 0, 2, 0]⟩ k)) ∧
      ∀ row ∈ rows, row.n = countAt ⟨[.fin 2, .fin 0, .fin 1, .fin 0], [4, 0, 2, 0]⟩ row.l ∧
        (row.l = 0 → row.t = "Ks" ∧
          row.m = (sumAt ⟨[.fin 2, .fin 0, .fin 1, .fin 0], [4, 0, 2, 0]⟩ 0).div
            (F64.ofInt (countAt ⟨[.fin 2, .fin 0, .fin 1, .fin 0], [4, 0, 2, 0]⟩ 0))) ∧
        (row.l ≠ 0 → row.t = "P2" ∧
          row.m = (sumAt ⟨[.fin 2, .fin 0, .fin 1, .fin 0], [4, 0, 2, 0]⟩ row.l).div
            (sumAt ⟨[.fin 2, .fin 0, .fin 1, .fin 0], [4, 0, 2, 0]⟩ 0)) := by
  refine ⟨?_, outputRows_contract ⟨[.fin 2, .fin 0, .fin 1, .fin 0], [4, 0, 2, 0]⟩ 4 rfl rfl⟩
  simp [outputRows, outputLoop, rowAt, List.range, List.range.loop, F64.div, F64.ofInt]
  norm_num

/-! ## Lemmas on the calls of `compute` -/

theorem computeLoop_count (f : VCFRecord) : ∀ (w : List VCFRecord) (acc acc1 : Acc),
    (∀ r ∈ w, wsub r.Pos f.Pos = r.Pos - f.Pos) → computeLoop f w acc = .ok acc1 →
    ∀ l : Nat, countAt acc1 l = countAt acc l + ((hits f l w).length : Int) := by
  intro w
  induction w with
  | nil => intro acc acc1 _ h l; simp only [computeLoop] at h; cases h; simp [hits]
  | cons x rest ih =>
    intro acc acc1 hq h l
    rw [computeLoop] at h
    cases hx : computeAt f acc x with
    | error e => rw [hx] at h; cases h
    | ok acc2 =>
      rw [hx] at h
      rw [ih acc2 acc1 (fun r hr => hq r (List.mem_cons_of_mem _ hr)) h l,
        computeAt_countAt f x acc acc2 hx l, hits_cons, hq x (List.mem_cons_self _ _)]
      by_cases hl : x.Pos - f.Pos = (l : Int)
      · rw [if_pos hl, if_pos hl, List.length_cons]; push_cast; ring
      · rw [if_neg hl, if_neg hl]; ring

theorem compute_count (w : List VCFRecord) (acc acc1 : Acc) (hq : NoWrap w)
    (h : compute w acc = .ok acc1)
    (l : Nat) : countAt acc1 l = countAt acc l + (frontHits w l : Int) := by
  cases w with
  | nil => simp only [compute] at h; cases h; simp [frontHits]
  | cons f b =>
    exact computeLoop_count f (f :: b) acc acc1
      (fun r hr => wsub_of_noWrap _ hq r f hr (List.mem_cons_self _ _)) h l

theorem frontHits_zero (w : List VCFRecord) :
    frontHits w 0 = (if w = [] then 0 else 1) + frontTies w := by
  cases w with
  | nil => rfl
  | cons f b =>
    simp only [frontHits, frontTies, hits_cons, sub_self, if_true, List.length_cons]
    simp only [reduceCtorEq, if_false]
    omega

theorem loopBody_cases (maxl rs re : Int) (st st1 : State) (r : VCFRecord)
    (h : loopBody maxl rs re st r = .ok (some st1)) :
    (rs ≤ r.Pos ∧ r.Pos ≤ re) ∧
    ((stepCall maxl rs re st r = none ∧ st1 = ⟨st.buffer ++ [r], st.acc⟩ ∧
        ∀ f ∈ st.buffer.head?, wsub r.Pos f.Pos < maxl) ∨
      ∃ f b acc1, st.buffer = f :: b ∧ stepCall maxl rs re st r = some (f :: b) ∧
        compute (f :: b) st.acc = .ok acc1 ∧ st1 = ⟨b, acc1⟩ ∧
        maxl ≤ wsub r.Pos f.Pos) := by
  obtain ⟨buf, acc⟩ := st
  unfold loopBody at h
  unfold stepCall
  simp only [] at h ⊢
  by_cases hreg : r.Pos < rs ∨ r.Pos > re
  · rw [if_pos hreg] at h; cases h
  · rw [if_neg hreg] at h
    rw [if_neg hreg]
    refine ⟨by omega, ?_⟩
    cases buf with
    | nil =>
      simp only [] at h ⊢
      cases h
      exact Or.inl ⟨trivial, rfl, by simp⟩
    | cons f b =>
      simp only [] at h ⊢
      by_cases hnear : wsub r.Pos f.Pos < maxl
      · rw [if_pos hnear] at h
        rw [if_pos hnear]
        cases h
        exact Or.inl ⟨rfl, rfl, by simpa using hnear⟩
      · rw [if_neg hnear] at h
        rw [if_neg hnear]
        cases hc : compute (f :: b) acc with
        | error e => rw [hc] at h; cases h
        | ok acc1 =>
          rw [hc] at h
          cases h
          exact Or.inr ⟨f, b, acc1, rfl, rfl, hc, rfl, by omega⟩

theorem loopBody_sublist (maxl rs re : Int) (st st1 : State) (r : VCFRecord)
    (rest : List VCFRecord) (h : loopBody maxl rs re st r = .ok (some st1)) :
    List.Sublist (st1.buffer ++ rest) (st.buffer ++ r :: rest) := by
  obtain ⟨_, hcase⟩ := loopBody_cases maxl rs re st st1 r h
  rcases hcase with ⟨_, rfl, _⟩ | ⟨f, b, acc1, hbuf, _, _, rfl, _⟩
  · simp
  · rw [hbuf]
    apply List.Sublist.cons
    exact List.Sublist.append (List.Sublist.refl _) (List.sublist_cons_self _ _)

theorem mainLoop_count (maxl rs re : Int) : ∀ (s : List VCFRecord) (st st1 : State),
    NoWrap (st.buffer ++ s) → mainLoop maxl rs re s st = .ok st1 →
    ∀ l : Nat, countAt st1.acc l = countAt st.acc l +
      ((loopCalls maxl rs re s st).map (fun w => (frontHits w l : Int))).sum := by
  intro s
  induction s with
  | nil => intro st st1 _ h l; simp only [mainLoop] at h; cases h; simp [loopCalls]
  | cons r rest ih =>
    intro st st1 hq h l
    rw [mainLoop] at h
    rw [loopCalls]
    cases hb : loopBody maxl rs re st r with
    | error e => rw [hb] at h; cases h
    | ok o =>
      rw [hb] at h
      cases o with
      | none => simp only [] at h ⊢; cases h; simp
      | some st2 =>
        simp only [] at h ⊢
        rw [ih st2 st1
          (noWrap_sublist _ _ (loopBody_sublist maxl rs re st st2 r rest hb) hq) h l]
        obtain ⟨_, hcase⟩ := loopBody_cases maxl rs re st st2 r hb
        rcases hcase with ⟨hnone, rfl, _⟩ | ⟨f, b, acc1, hbuf, hsome, hc, rfl, _⟩
        · rw [hnone]; simp
        · rw [hsome]
          have := compute_count (f :: b) st.acc acc1
            (noWrap_sublist _ _ (by rw [hbuf]; exact List.sublist_append_left _ _) hq) hc l
          simp only [Option.toList, List.cons_append, List.nil_append, List.map_cons,
            List.sum_cons]
          rw [this]; ring

theorem loopCalls_ne_nil (maxl rs re : Int) : ∀ (s : List VCFRecord) (st : State),
    ∀ w ∈ loopCalls maxl rs re s st, w ≠ [] := by
  intro s
  induction s with
  | nil => intro st w hw; simp [loopCalls] at hw
  | cons r rest ih =>
    intro st w hw
    have hstep : ∀ w ∈ (stepCall maxl rs re st r).toList, w ≠ [] := by
      intro w hw
      unfold stepCall at hw
      split at hw
      · simp at hw
      · split at hw
        · simp at hw
        · rename_i f b hbuf
          split at hw
          · simp at hw
          · simp only [Option.toList, List.mem_singleton] at hw
            rw [hw, hbuf]; simp
    rw [loopCalls] at hw
    cases hb : loopBody maxl rs re st r with
    | error e => rw [hb] at hw; exact hstep w hw
    | ok o =>
      rw [hb] at hw
      cases o with
      | none => simp at hw
      | some st2 =>
        simp only [] at hw
        rcases List.mem_append.mp hw with h1 | h2
        · exact hstep w h1
        · exact ih st2 w h2

theorem hits_length_sublist (f : VCFRecord) (l : Int) (w1 w2 : List VCFRecord)
    (h : List.Sublist w1 w2) : (hits f l w1).length ≤ (hits f l w2).length :=
  List.Sublist.length_le (List.Sublist.filter _ h)

theorem pairsAtLag_sublist (l : Int) (w1 w2 : List VCFRecord) (h : List.Sublist w1 w2) :
    pairsAtLag w1 l ≤ pairsAtLag w2 l := by
  induction h with
  | slnil => exact le_refl _
  | cons a _ ih =>
    rw [pairsAtLag]
    omega
  | cons₂ a hsub ih =>
    rw [pairsAtLag, pairsAtLag]
    have := hits_length_sublist a l _ _ (List.Sublist.cons₂ a hsub)
    omega

theorem frontHits_le_pairs (w : List VCFRecord) (l : Int) : frontHits w l ≤ pairsAtLag w l := by
  cases w with
  | nil => simp [frontHits, pairsAtLag]
  | cons f b => simp only [frontHits, pairsAtLag]; omega

theorem finish_pair_bound (maxl rs re : Int) :
    ∀ (s : List VCFRecord) (st st1 : State) (a : Acc), NoWrap (st.buffer ++ s) →
    mainLoop maxl rs re s st = .ok st1 → compute st1.buffer st1.acc = .ok a →
    ∀ l : Nat, countAt a l ≤
      countAt st.acc l + (pairsAtLag (st.buffer ++ consumed rs re s) l : Int) := by
  intro s
  induction s with
  | nil =>
    intro st st1 a hq h hf l
    simp only [mainLoop] at h
    cases h
    rw [compute_count _ _ _ (by simpa using hq) hf l]
    have := frontHits_le_pairs st.buffer l
    simp only [consumed, List.takeWhile_nil, List.append_nil]
    omega
  | cons r rest ih =>
    intro st st1 a hq h hf l
    rw [mainLoop] at h
    cases hb : loopBody maxl rs re st r with
    | error e => rw [hb] at h; cases h
    | ok o =>
      rw [hb] at h
      cases o with
      | none =>
        simp only [] at h
        cases h
        rw [compute_count _ _ _ (noWrap_sublist _ _ (List.sublist_append_left _ _) hq) hf l]
        have h1 := frontHits_le_pairs st.buffer l
        have h2 := pairsAtLag_sublist l st.buffer (st.buffer ++ consumed rs re (r :: rest))
          (List.sublist_append_left _ _)
        omega
      | some st2 =>
        simp only [] at h
        have hrec := ih st2 st1 a
          (noWrap_sublist _ _ (loopBody_sublist maxl rs re st st2 r rest hb) hq) h hf l
        obtain ⟨hreg, hcase⟩ := loopBody_cases maxl rs re st st2 r hb
        have hcons : consumed rs re (r :: rest) = r :: consumed rs re rest := by
          simp [consumed, List.takeWhile_cons, hreg]
        rw [hcons]
        rcases hcase with ⟨_, rfl, _⟩ | ⟨f, b, acc1, hbuf, _, hc, rfl, _⟩
        · simpa using hrec
        · simp only [] at hrec
          rw [compute_count _ _ _
            (noWrap_sublist _ _ (by rw [hbuf]; exact List.sublist_append_left _ _) hq)
            hc l] at hrec
          rw [hbuf]
          have h1 := hits_length_sublist f l (f :: b) (f :: (b ++ r :: consumed rs re rest))
            (List.Sublist.cons₂ f (List.sublist_append_left _ _))
          have h2 := pairsAtLag_sublist l (b ++ consumed rs re rest)
            (b ++ r :: consumed rs re rest)
            (List.Sublist.append (List.Sublist.refl _) (List.sublist_cons_self _ _))
          simp only [frontHits] at hrec
          have hp : pairsAtLag (f :: b ++ r :: consumed rs re rest) l =
              (hits f l (f :: (b ++ r :: consumed rs re rest))).length +
                pairsAtLag (b ++ r :: consumed rs re rest) l := rfl
          rw [hp]
          push_cast
          omega

theorem stepCall_some (maxl rs re : Int) (st : State) (r : VCFRecord) (w : List VCFRecord)
    (h : w ∈ (stepCall maxl rs re st r).toList) : w = st.buffer := by
  unfold stepCall at h
  split at h
  · simp at h
  · split at h
    · simp at h
    · rename_i f b hbuf
      split at h
      · simp at h
      · simpa using h

theorem loop_sublist (maxl rs re : Int) : ∀ (s : List VCFRecord) (st : State),
    (∀ w ∈ loopCalls maxl rs re s st, List.Sublist w (st.buffer ++ s)) ∧
    (∀ st1, mainLoop maxl rs re s st = .ok st1 → List.Sublist st1.buffer (st.buffer ++ s)) := by
  intro s
  induction s with
  | nil =>
    intro st
    refine ⟨fun w hw => by simp [loopCalls] at hw, fun st1 h => ?_⟩
    simp only [mainLoop] at h
    cases h
    simp
  | cons r rest ih =>
    intro st
    have hstep : ∀ w ∈ (stepCall maxl rs re st r).toList,
        List.Sublist w (st.buffer ++ r :: rest) := by
      intro w hw
      rw [stepCall_some maxl rs re st r w hw]
      exact List.sublist_append_left _ _
    constructor
    · intro w hw
      rw [loopCalls] at hw
      cases hb : loopBody maxl rs re st r with
      | error e => rw [hb] at hw; exact hstep w hw
      | ok o =>
        rw [hb] at hw
        cases o with
        | none => simp at hw
        | some st2 =>
          simp only [] at hw
          rcases List.mem_append.mp hw with h1 | h2
          · exact hstep w h1
          · exact List.Sublist.trans ((ih st2).1 w h2)
              (loopBody_sublist maxl rs re st st2 r rest hb)
    · intro st1 h
      rw [mainLoop] at h
      cases hb : loopBody maxl rs re st r with
      | error e => rw [hb] at h; cases h
      | ok o =>
        rw [hb] at h
        cases o with
        | none => simp only [] at h; cases h; exact List.sublist_append_left _ _
        | some st2 =>
          simp only [] at h
          exact List.Sublist.trans ((ih st2).2 st1 h)
            (loopBody_sublist maxl rs re st st2 r rest hb)

theorem loopCalls_winInv (maxl rs re : Int) (h1 : 1 ≤ maxl) :
    ∀ (s : List VCFRecord) (st : State), WinInv maxl st.buffer s →
    ∀ w ∈ loopCalls maxl rs re s st, ∃ up, WinInv maxl w up := by
  intro s
  induction s with
  | nil => intro st _ w hw; simp [loopCalls] at hw
  | cons r rest ih =>
    intro st hinv w hw
    have hstep : ∀ w ∈ (stepCall maxl rs re st r).toList, ∃ up, WinInv maxl w up := by
      intro w hw
      rw [stepCall_some maxl rs re st r w hw]
      exact ⟨_, hinv⟩
    rw [loopCalls] at hw
    cases hb : loopBody maxl rs re st r with
    | error e => rw [hb] at hw; exact hstep w hw
    | ok o =>
      rw [hb] at hw
      cases o with
      | none => simp at hw
      | some st2 =>
        simp only [] at hw
        rcases List.mem_append.mp hw with h2 | h2
        · exact hstep w h2
        · exact ih st2 (loopBody_winInv maxl rs re st st2 r rest h1 hinv hb) w h2

theorem winInv_lags (maxl : Int) (w up : List VCFRecord) (hinv : WinInv maxl w up) :
    ∀ f ∈ w.head?, ∀ r ∈ w, 0 ≤ r.Pos - f.Pos ∧ r.Pos - f.Pos < maxl ∧
      r.Pos - f.Pos < 2 ^ 63 ∧ wsub r.Pos f.Pos = r.Pos - f.Pos := by
  cases w with
  | nil => intro f hf; simp at hf
  | cons g b =>
    intro f hf r hr
    simp only [List.head?_cons, Option.mem_def, Option.some.injEq] at hf
    subst hf
    exact winInv_window_lag maxl g b up hinv r hr

theorem frontTies_strict (w : List VCFRecord) (h : StrictlyIncreasing w) : frontTies w = 0 := by
  cases w with
  | nil => rfl
  | cons f b =>
    have hlt := (List.pairwise_cons.mp h).1
    simp only [frontTies, hits, List.length_eq_zero, List.filter_eq_nil_iff,
      decide_eq_true_eq]
    intro x hx hx0
    have := hlt x hx
    omega

theorem run_ok_state (maxl rs re : Int) (n : Nat) (stream : List VCFRecord)
    (h1 : 1 ≤ maxl) (hs : NonDecreasing stream) (hq : NoWrap stream)
    (hlen : EqualLen n stream) :
    ∃ st acc, mainLoop maxl rs re stream (initState maxl) = .ok st ∧
      run maxl rs re stream = .ok acc ∧ compute st.buffer st.acc = .ok acc ∧
      ∃ up, WinInv maxl st.buffer up := by
  obtain ⟨st, hloop, ⟨up, hinv⟩, hbuf, ha, hc⟩ := mainLoop_ok maxl rs re n h1 stream
    (initState maxl) (winInv_init maxl stream hs hq) (by intro r hr; simp [initState] at hr)
    hlen (newAcc_len maxl).1 (newAcc_len maxl).2
  have hrun : run maxl rs re stream = compute st.buffer st.acc := by
    unfold run
    rw [if_neg (by omega), hloop]
  have hfin : ∃ acc, compute st.buffer st.acc = .ok acc := by
    obtain ⟨buf, a0⟩ := st
    cases buf with
    | nil => exact ⟨a0, rfl⟩
    | cons f b =>
      have hlag := winInv_window_lag maxl f b up hinv
      obtain ⟨acc, hcomp, _⟩ := compute_spec f b a0 maxl.toNat ha hc (by
        intro x hx
        have := hlag x hx
        refine ⟨?_, this.1, by omega, this.2.2.1⟩
        rw [hbuf f (List.mem_cons_self _ _), hbuf x hx])
      exact ⟨acc, hcomp⟩
  obtain ⟨acc, hcomp⟩ := hfin
  exact ⟨st, acc, hloop, by rw [hrun, hcomp], hcomp, up, hinv⟩

theorem run_count_zero_split (maxl rs re : Int) (stream : List VCFRecord) (st : State)
    (acc : Acc) (hq : NoWrap stream)
    (hloop : mainLoop maxl rs re stream (initState maxl) = .ok st)
    (hfin : compute st.buffer st.acc = .ok acc) :
    countAt acc 0 =
      ((loopCalls maxl rs re stream (initState maxl)).length : Int) +
        (if st.buffer = [] then 0 else 1) +
        (((loopCalls maxl rs re stream (initState maxl)).map
            (fun w => (frontTies w : Int))).sum + (frontTies st.buffer : Int)) := by
  have hq0 : NoWrap ((initState maxl).buffer ++ stream) := by simpa [initState] using hq
  have h1 := compute_count st.buffer st.acc acc
    (noWrap_sublist _ _ ((loop_sublist maxl rs re stream (initState maxl)).2 st hloop) hq0)
    hfin 0
  have h2 := mainLoop_count maxl rs re stream (initState maxl) st hq0 hloop 0
  have h0 : countAt (initState maxl).acc 0 = 0 := countAt_newAcc maxl 0
  rw [h0, zero_add] at h2
  simp only [Nat.cast_zero] at h2
  have hne := loopCalls_ne_nil maxl rs re stream (initState maxl)
  have hsum : ∀ (L : List (List VCFRecord)), (∀ w ∈ L, w ≠ []) →
      (L.map (fun w => (frontHits w 0 : Int))).sum =
        (L.length : Int) + (L.map (fun w => (frontTies w : Int))).sum := by
    intro L
    induction L with
    | nil => intro _; simp
    | cons w L ih =>
      intro hL
      have hw := hL w (List.mem_cons_self _ _)
      rw [List.map_cons, List.sum_cons, List.map_cons, List.sum_cons,
        ih (fun x hx => hL x (List.mem_cons_of_mem _ hx)), frontHits_zero w, if_neg hw,
        List.length_cons]
      push_cast; ring
  simp only [Nat.cast_zero] at h1
  rw [h1, h2, hsum _ hne, frontHits_zero st.buffer]
  split <;> (push_cast; ring)

/-! ## C1: which pairs the final counts hold -/

/-- C1 (as stated, refuted): on the stream of two records at positions 1 and 2, which is
non-decreasing, inside the region and of equal vector length, with `maxl = 3`, the run ends
with `count[0] = 1` although two pairs (the two self-pairs) have position difference 0.
And on the non-decreasing, in-region positions `-5·10^18`, `5·10^18`, whose difference wraps
around, the run stops with an index out of range: there is no final count. -/
theorem run_count_misses_pairs :
    (NonDecreasing [mkRec 1 "01", mkRec 2 "01"] ∧
      InRegion 1 1000 [mkRec 1 "01", mkRec 2 "01"] ∧
      EqualLen 2 [mkRec 1 "01", mkRec 2 "01"] ∧
      ∃ acc, run 3 1 1000 [mkRec 1 "01", mkRec 2 "01"] = .ok acc ∧ countAt acc 0 = 1 ∧
        pairsAtLag [mkRec 1 "01", mkRec 2 "01"] 0 = 2) ∧
    NonDecreasing farApart ∧
    InRegion (-5000000000000000000) 5000000000000000000 farApart ∧ EqualLen 2 farApart ∧
    run 3 (-5000000000000000000) 5000000000000000000 farApart = .error .indexOutOfRange :=
  ⟨⟨by decide, by decide, by decide, _, rfl, by decide, by decide⟩,
    by decide, by decide, by decide, rfl⟩

/-- C1 (amended): for a stream with non-decreasing positions no two of which are `2^63` or
more apart, equal-length genotype vectors and `maxl ≥ 1`, the run completes and, for every
lag `l`, the final `count[l]` is the number of pairs (front of the window, record of the
window) at distance `l`, summed over the windows passed to `compute` by the run: the window
of each evicting step and the window left at end of stream. A pair of records is counted
only when its first record is the front of such a window while the second is in it. -/
theorem run_count_over_calls (maxl rs re : Int) (n : Nat) (stream : List VCFRecord)
    (h1 : 1 ≤ maxl) (hs : NonDecreasing stream) (hq : NoWrap stream)
    (hlen : EqualLen n stream) :
    ∃ acc, run maxl rs re stream = .ok acc ∧
      ∀ l : Nat, countAt acc l =
        ((runCalls maxl rs re stream).map (fun w => (frontHits w l : Int))).sum := by
  obtain ⟨st, acc, hloop, hrun, hfin, _⟩ := run_ok_state maxl rs re n stream h1 hs hq hlen
  refine ⟨acc, hrun, fun l => ?_⟩
  have hq0 : NoWrap ((initState maxl).buffer ++ stream) := by simpa [initState] using hq
  have h2 := mainLoop_count maxl rs re stream (initState maxl) st hq0 hloop l
  have h3 := compute_count st.buffer st.acc acc
    (noWrap_sublist _ _ ((loop_sublist maxl rs re stream (initState maxl)).2 st hloop) hq0)
    hfin l
  have h0 : countAt (initState maxl).acc l = 0 := countAt_newAcc maxl l
  rw [h0, zero_add] at h2
  unfold runCalls
  rw [if_neg (by omega), hloop]
  simp only [List.map_append, List.sum_append, List.map_cons, List.map_nil, List.sum_cons,
    List.sum_nil, add_zero]
  rw [h3, h2]

/-- C1 (amended), on positions 10, 11, 13, 14, 17 with `maxl = 3`: the run calls `compute`
three times, on the windows of the two evicting steps and on the window left at the end. -/
theorem run_count_over_calls_witness :
    runCalls 3 1 1000 [mkRec 10 "01", mkRec 11 "11", mkRec 13 "10", mkRec 14 "00",
        mkRec 17 "01"] =
      [[mkRec 10 "01", mkRec 11 "11"], [mkRec 11 "11"], [mkRec 17 "01"]] ∧
    ∃ acc, run 3 1 1000 [mkRec 10 "01", mkRec 11 "11", mkRec 13 "10", mkRec 14 "00",
        mkRec 17 "01"] = .ok acc ∧
      ∀ l : Nat, countAt acc l =
        ((runCalls 3 1 1000 [mkRec 10 "01", mkRec 11 "11", mkRec 13 "10", mkRec 14 "00",
          mkRec 17 "01"]).map (fun w => (frontHits w l : Int))).sum :=
  ⟨rfl, run_count_over_calls 3 1 1000 2 _ (by decide) (by decide) (by decide) (by decide)⟩

/-! ## Lemmas on the case `maxl = 0` -/

theorem compute_empty_arrays (f : VCFRecord) (b : List VCFRecord) :
    compute (f :: b) (newAcc 0) = .error .indexOutOfRange := by
  have h : computeAt f (newAcc 0) f = .error .indexOutOfRange := by
    unfold computeAt
    rw [addGTs_ok f.GTs f.GTs (NewNuclCov ['0', '1']) (le_refl _) rfl]
    simp [addAt, newAcc, wsub_self]
  simp only [compute, computeLoop, h]

theorem finish_zero (rs re : Int) : ∀ (s : List VCFRecord) (f : VCFRecord)
    (b : List VCFRecord),
    (match mainLoop 0 rs re s ⟨f :: b, newAcc 0⟩ with
      | .error e => Except.error e
      | .ok st => compute st.buffer st.acc) = .error .indexOutOfRange := by
  intro s
  induction s with
  | nil => intro f b; simp only [mainLoop]; exact compute_empty_arrays f b
  | cons r rest ih =>
    intro f b
    rw [mainLoop]
    by_cases hreg : r.Pos < rs ∨ r.Pos > re
    · have hb : loopBody 0 rs re ⟨f :: b, newAcc 0⟩ r = .ok none := by
        simp only [loopBody, if_pos hreg]
      rw [hb]
      exact compute_empty_arrays f b
    · by_cases hnear : wsub r.Pos f.Pos < 0
      · have hb : loopBody 0 rs re ⟨f :: b, newAcc 0⟩ r =
            .ok (some ⟨f :: (b ++ [r]), newAcc 0⟩) := by
          simp only [loopBody, if_neg hreg, if_pos hnear, List.cons_append]
        rw [hb]
        exact ih f (b ++ [r])
      · have hb : loopBody 0 rs re ⟨f :: b, newAcc 0⟩ r = .error .indexOutOfRange := by
          simp only [loopBody, if_neg hreg, if_neg hnear, compute_empty_arrays]
        rw [hb]

/-! ## C11: the step at exactly `maxl` -/

/-- C11 (as stated, refuted): window of two records at position 10, incoming record at 13,
`maxl = 3`. The step completes and evicts the front, but `count[0]` grows from 0 to 2: by the
self-pair of the front and by the pair of the front with the other record at position 10.
And over the whole run on the non-decreasing positions `-5·10^18`, `5·10^18`, whose
difference wraps around, the run stops with an index out of range and leaves no counts. -/
theorem evict_step_counts_ties :
    (∃ st1, loopBody 3 1 1000 ⟨[mkRec 10 "01", mkRec 10 "11"], newAcc 3⟩ (mkRec 13 "10")
        = .ok (some st1) ∧
      countAt (newAcc 3) 0 = 0 ∧ countAt st1.acc 0 = 2) ∧
    NonDecreasing farApart ∧
    run 3 (-5000000000000000000) 5000000000000000000 farApart = .error .indexOutOfRange :=
  ⟨⟨_, rfl, by decide, by decide⟩, by decide, rfl⟩

/-- C11 (amended): let `maxl ≥ 1`. For a window `f :: b` with non-decreasing positions, any two
records less than `maxl` apart, equal-length genotype vectors and arrays of length `maxl`,
and an incoming record `r` inside the region with `r.Pos - f.Pos = maxl` (no two of these
positions being `2^63` or more apart), the step completes, evicts the front (the window
afterwards is `b`, or `b` followed by `r`: which of the two is not stated here) and increases
`count[0]` by one for the self-pair of `f` plus one for each record of `b` at the position of
`f`. Over a whole run with non-decreasing positions, no two of them `2^63` or more apart, and
equal-length vectors, the run completes and the final `count[0]` is the number of calls of
`compute` on a non-empty window (one for each evicting step, plus the call at end of stream
when the window is then non-empty), each counting the self-pair of its front once, plus the
number of records found at the position of the front behind it in those windows. -/
theorem evict_at_maxLag (maxl rs re : Int) (n : Nat) (h1 : 1 ≤ maxl) :
    (∀ (f r : VCFRecord) (b : List VCFRecord) (acc : Acc),
      WinInv maxl (f :: b) [r] → EqualLen n (f :: b) →
      acc.p2arr.length = maxl.toNat → acc.p2counts.length = maxl.toNat →
      rs ≤ r.Pos ∧ r.Pos ≤ re → r.Pos - f.Pos = maxl →
      ∃ st1, loopBody maxl rs re ⟨f :: b, acc⟩ r = .ok (some st1) ∧
        (st1.buffer = b ∨ st1.buffer = b ++ [r]) ∧
        countAt st1.acc 0 = countAt acc 0 + 1 + (frontTies (f :: b) : Int)) ∧
    (∀ stream : List VCFRecord, NonDecreasing stream → NoWrap stream → EqualLen n stream →
      ∃ st acc, mainLoop maxl rs re stream (initState maxl) = .ok st ∧
        run maxl rs re stream = .ok acc ∧
        countAt acc 0 =
          ((loopCalls maxl rs re stream (initState maxl)).length : Int) +
            (if st.buffer = [] then 0 else 1) +
            (((loopCalls maxl rs re stream (initState maxl)).map
                (fun w => (frontTies w : Int))).sum + (frontTies st.buffer : Int))) := by
  constructor
  · intro f r b acc hinv hlen ha hc hreg hfar
    have hlag := winInv_window_lag maxl f b _ hinv
    obtain ⟨acc1, hrun, _, _, _⟩ := compute_spec f b acc maxl.toNat ha hc (by
      intro x hx
      have := hlag x hx
      refine ⟨?_, this.1, by omega, this.2.2.1⟩
      rw [hlen f (List.mem_cons_self _ _), hlen x hx])
    have hr : ¬ (r.Pos < rs ∨ r.Pos > re) := by omega
    have hf : ¬ (wsub r.Pos f.Pos < maxl) := by
      rw [wsub_of_noWrap _ hinv.2.2 r f (by simp) (by simp)]
      omega
    refine ⟨⟨b, acc1⟩, ?_, Or.inl rfl, ?_⟩
    · simp only [loopBody, if_neg hr, if_neg hf, hrun]
    · have := compute_count (f :: b) acc acc1
        (noWrap_sublist _ _ (List.sublist_append_left _ _) hinv.2.2) hrun 0
      simp only [Nat.cast_zero] at this
      rw [this, frontHits_zero]
      simp
      ring
  · intro stream hs hq hlen
    obtain ⟨st, acc, hloop, hrun, hfin, _⟩ := run_ok_state maxl rs re n stream h1 hs hq hlen
    exact ⟨st, acc, hloop, hrun, run_count_zero_split maxl rs re stream st acc hq hloop hfin⟩

/-- C11 (amended), with `maxl = 3`: the step on the window of the records at 10 and 11 with
the incoming record at 13, and the run on positions 10, 11, 13, 14, 17. -/
theorem evict_at_maxLag_witness :
    (∃ st1, loopBody 3 1 1000 ⟨[mkRec 10 "01", mkRec 11 "11"], newAcc 3⟩ (mkRec 13 "10")
        = .ok (some st1) ∧
      (st1.buffer = [mkRec 11 "11"] ∨ st1.buffer = [mkRec 11 "11"] ++ [mkRec 13 "10"]) ∧
      countAt st1.acc 0 = countAt (newAcc 3) 0 + 1 +
        (frontTies [mkRec 10 "01", mkRec 11 "11"] : Int)) ∧
    ∃ st acc, mainLoop 3 1 1000 [mkRec 10 "01", mkRec 11 "11", mkRec 13 "10", mkRec 14 "00",
        mkRec 17 "01"] (initState 3) = .ok st ∧
      run 3 1 1000 [mkRec 10 "01", mkRec 11 "11", mkRec 13 "10", mkRec 14 "00",
        mkRec 17 "01"] = .ok acc ∧
      countAt acc 0 =
        ((loopCalls 3 1 1000 [mkRec 10 "01", mkRec 11 "11", mkRec 13 "10", mkRec 14 "00",
          mkRec 17 "01"] (initState 3)).length : Int) +
          (if st.buffer = [] then 0 else 1) +
          (((loopCalls 3 1 1000 [mkRec 10 "01", mkRec 11 "11", mkRec 13 "10", mkRec 14 "00",
            mkRec 17 "01"] (initState 3)).map (fun w => (frontTies w : Int))).sum +
            (frontTies st.buffer : Int)) :=
  ⟨(evict_at_maxLag 3 1 1000 2 (by decide)).1 (mkRec 10 "01") (mkRec 13 "10")
      [mkRec 11 "11"] (newAcc 3) (by unfold WinInv; decide) (by decide) rfl rfl
      (by decide) (by decide),
   (evict_at_maxLag 3 1 1000 2 (by decide)).2 _ (by decide) (by decide) (by decide)⟩

theorem calls_zero (rs re : Int) : ∀ (s : List VCFRecord) (f : VCFRecord)
    (b : List VCFRecord),
    ∃ w, loopCalls 0 rs re s ⟨f :: b, newAcc 0⟩ ++
      (match mainLoop 0 rs re s ⟨f :: b, newAcc 0⟩ with
        | .error _ => []
        | .ok st => [st.buffer]) = [w] ∧ w ≠ [] := by
  intro s
  induction s with
  | nil => intro f b; exact ⟨f :: b, by simp [loopCalls, mainLoop], List.cons_ne_nil _ _⟩
  | cons r rest ih =>
    intro f b
    rw [loopCalls, mainLoop]
    by_cases hreg : r.Pos < rs ∨ r.Pos > re
    · have hb : loopBody 0 rs re ⟨f :: b, newAcc 0⟩ r = .ok none := by
        simp only [loopBody, if_pos hreg]
      rw [hb]
      exact ⟨f :: b, rfl, List.cons_ne_nil _ _⟩
    · by_cases hnear : wsub r.Pos f.Pos < 0
      · have hb : loopBody 0 rs re ⟨f :: b, newAcc 0⟩ r =
            .ok (some ⟨f :: (b ++ [r]), newAcc 0⟩) := by
          simp only [loopBody, if_neg hreg, if_pos hnear, List.cons_append]
        have hc : stepCall 0 rs re ⟨f :: b, newAcc 0⟩ r = none := by
          simp only [stepCall, if_neg hreg, if_pos hnear]
        rw [hb, hc]
        simp only [Option.toList, List.nil_append]
        exact ih f (b ++ [r])
      · have hb : loopBody 0 rs re ⟨f :: b, newAcc 0⟩ r = .error .indexOutOfRange := by
          simp only [loopBody, if_neg hreg, if_neg hnear, compute_empty_arrays]
        have hc : stepCall 0 rs re ⟨f :: b, newAcc 0⟩ r = some (f :: b) := by
          simp only [stepCall, if_neg hreg, if_neg hnear]
        rw [hb, hc]
        exact ⟨f :: b, rfl, List.cons_ne_nil _ _⟩

/-! ## C18: the lags that `compute` indexes with -/

/-- C18 (as stated, refuted): at the non-decreasing positions `-5·10^18`, `5·10^18` with
equal-length vectors and `maxl = 3`, the final call of `compute` is on the window of both
records; the lag it computes for the second one is the wrapped difference
`-8446744073709551616`, which is not in `0 .. 2`, and the write stops the run with an index
out of range. -/
theorem wrapped_lag_out_of_range :
    NonDecreasing farApart ∧ EqualLen 2 farApart ∧
    runCalls 3 (-5000000000000000000) 5000000000000000000 farApart = [farApart] ∧
    wsub 5000000000000000000 (-5000000000000000000) = -8446744073709551616 ∧
    compute farApart (newAcc 3) = .error .indexOutOfRange ∧
    run 3 (-5000000000000000000) 5000000000000000000 farApart = .error .indexOutOfRange :=
  ⟨by decide, by decide, rfl, by decide, rfl, rfl⟩

/-- C18 (amended): for a stream with non-decreasing positions no two of which are `2^63` or
more apart, equal-length genotype vectors and `maxl ≥ 1`, the run completes, and in every
call of `compute` of the run (the evicting steps and the end of stream) every lag computed,
the Go difference `r.Pos - front.Pos`, is the exact difference and satisfies
`0 ≤ lag < maxl`. For `maxl = 0` and a non-empty stream inside the region, the run makes a
single call of `compute`, on a non-empty window, and this last call of the run stops it with
an index out of range. -/
theorem compute_lags_in_range (maxl rs re : Int) (n : Nat) (stream : List VCFRecord) :
    (1 ≤ maxl → NonDecreasing stream → NoWrap stream → EqualLen n stream →
      (∃ acc, run maxl rs re stream = .ok acc) ∧
      ∀ w ∈ runCalls maxl rs re stream, ∀ f ∈ w.head?, ∀ r ∈ w,
        wsub r.Pos f.Pos = r.Pos - f.Pos ∧ 0 ≤ wsub r.Pos f.Pos ∧ wsub r.Pos f.Pos < maxl) ∧
    (maxl = 0 → stream ≠ [] → InRegion rs re stream →
      run maxl rs re stream = .error .indexOutOfRange ∧
      ∃ w, runCalls maxl rs re stream = [w] ∧ w ≠ [] ∧
        compute w (newAcc maxl) = .error .indexOutOfRange) := by
  have hl : ∀ (w up : List VCFRecord), WinInv maxl w up → ∀ f ∈ w.head?, ∀ r ∈ w,
      wsub r.Pos f.Pos = r.Pos - f.Pos ∧ 0 ≤ wsub r.Pos f.Pos ∧ wsub r.Pos f.Pos < maxl := by
    intro w up hinv f hf r hr
    obtain ⟨h0, h1, _, h3⟩ := winInv_lags maxl w up hinv f hf r hr
    exact ⟨h3, by rw [h3]; exact h0, by rw [h3]; exact h1⟩
  constructor
  · intro h1 hs hq hlen
    obtain ⟨st, acc, hloop, hrun, _, up, hinv⟩ :=
      run_ok_state maxl rs re n stream h1 hs hq hlen
    refine ⟨⟨acc, hrun⟩, ?_⟩
    intro w hw
    unfold runCalls at hw
    rw [if_neg (by omega), hloop] at hw
    rcases List.mem_append.mp hw with h2 | h2
    · obtain ⟨up1, hinv1⟩ := loopCalls_winInv maxl rs re h1 stream (initState maxl)
        (winInv_init maxl stream hs hq) w h2
      exact hl w up1 hinv1
    · simp only [List.mem_singleton] at h2
      subst h2
      exact hl st.buffer up hinv
  · intro h0 hne hreg
    subst h0
    cases stream with
    | nil => exact absurd rfl hne
    | cons f rest =>
      have hf := hreg f (List.mem_cons_self _ _)
      have hfreg : ¬ (f.Pos < rs ∨ f.Pos > re) := by omega
      have hstep : loopBody 0 rs re (initState 0) f = .ok (some ⟨[f], newAcc 0⟩) := by
        simp [loopBody, hfreg, initState]
      have hcall : stepCall 0 rs re (initState 0) f = none := by
        simp [stepCall, hfreg, initState]
      constructor
      · unfold run
        rw [if_neg (by omega), mainLoop, hstep]
        exact finish_zero rs re rest f []
      · obtain ⟨w, hw, hwne⟩ := calls_zero rs re rest f []
        refine ⟨w, ?_, hwne, ?_⟩
        · unfold runCalls
          rw [if_neg (by omega), loopCalls, mainLoop, hstep, hcall]
          simp only [Option.toList, List.nil_append]
          exact hw
        · cases w with
          | nil => exact absurd rfl hwne
          | cons g c => exact compute_empty_arrays g c

/-- C18 (amended), on positions 10, 11, 13, 14, 14, 20 with `maxl = 3`, and on positions
1, 2 with `maxl = 0`. -/
theorem compute_lags_in_range_witness :
    ((∃ acc, run 3 1 1000 [mkRec 10 "01", mkRec 11 "11", mkRec 13 "10", mkRec 14 "00",
        mkRec 14 "01", mkRec 20 "11"] = .ok acc) ∧
      ∀ w ∈ runCalls 3 1 1000 [mkRec 10 "01", mkRec 11 "11", mkRec 13 "10", mkRec 14 "00",
        mkRec 14 "01", mkRec 20 "11"], ∀ f ∈ w.head?, ∀ r ∈ w,
        wsub r.Pos f.Pos = r.Pos - f.Pos ∧ 0 ≤ wsub r.Pos f.Pos ∧ wsub r.Pos f.Pos < 3) ∧
    (run 0 1 1000 [mkRec 1 "01", mkRec 2 "11"] = .error .indexOutOfRange ∧
      ∃ w, runCalls 0 1 1000 [mkRec 1 "01", mkRec 2 "11"] = [w] ∧ w ≠ [] ∧
        compute w (newAcc 0) = .error .indexOutOfRange) :=
  ⟨(compute_lags_in_range 3 1 1000 2 _).1 (by decide) (by decide) (by decide) (by decide),
   (compute_lags_in_range 0 1 1000 2 [mkRec 1 "01", mkRec 2 "11"]).2 rfl (by simp)
     (by decide)⟩

/-! ## C19: no pair is counted twice -/

/-- C19 (as stated, refuted): on the stream of two records at position 1, with `maxl = 3`, the
only call of `compute` on a non-empty window is the call at end of stream (no eviction
occurs), yet the run ends with `count[0] = 2`. And on the non-decreasing positions
`-5·10^18`, `5·10^18`, whose difference wraps around, the run stops with an index out of
range: there is no final count. -/
theorem count_zero_exceeds_calls :
    (NonDecreasing [mkRec 1 "01", mkRec 1 "11"] ∧ EqualLen 2 [mkRec 1 "01", mkRec 1 "11"] ∧
      runCalls 3 1 1000 [mkRec 1 "01", mkRec 1 "11"] = [[mkRec 1 "01", mkRec 1 "11"]] ∧
      ∃ acc, run 3 1 1000 [mkRec 1 "01", mkRec 1 "11"] = .ok acc ∧ countAt acc 0 = 2) ∧
    NonDecreasing farApart ∧ EqualLen 2 farApart ∧
    run 3 (-5000000000000000000) 5000000000000000000 farApart = .error .indexOutOfRange :=
  ⟨⟨by decide, by decide, rfl, _, rfl, by decide⟩, by decide, by decide, rfl⟩

/-- C19 (amended): for a stream with non-decreasing positions no two of which are `2^63` or
more apart, equal-length genotype vectors and `maxl ≥ 1`, the run completes and, for every
lag `l`, the final `count[l]` is at most
the number of record pairs (`i ≤ j`, self-pairs included) of the consumed in-region records
with `position[j] - position[i] = l`. Every call of `compute` made by the loop is on a
non-empty window, and when positions strictly increase the final `count[0]` equals the
number of calls of `compute` on a non-empty window: the calls of the loop, one for each
evicting step, plus the call at end of stream when the window is then non-empty. -/
theorem count_at_most_pairs (maxl rs re : Int) (n : Nat) (stream : List VCFRecord)
    (h1 : 1 ≤ maxl) (hs : NonDecreasing stream) (hq : NoWrap stream)
    (hlen : EqualLen n stream) :
    ∃ st acc, mainLoop maxl rs re stream (initState maxl) = .ok st ∧
      run maxl rs re stream = .ok acc ∧
      (∀ l : Nat, countAt acc l ≤ (pairsAtLag (consumed rs re stream) l : Int)) ∧
      (∀ w ∈ loopCalls maxl rs re stream (initState maxl), w ≠ []) ∧
      (StrictlyIncreasing stream →
        countAt acc 0 = ((loopCalls maxl rs re stream (initState maxl)).length : Int) +
          (if st.buffer = [] then 0 else 1)) := by
  obtain ⟨st, acc, hloop, hrun, hfin, _⟩ := run_ok_state maxl rs re n stream h1 hs hq hlen
  refine ⟨st, acc, hloop, hrun, ?_, loopCalls_ne_nil maxl rs re stream (initState maxl), ?_⟩
  · intro l
    have := finish_pair_bound maxl rs re stream (initState maxl) st acc
      (by simpa [initState] using hq) hloop hfin l
    have h0 : countAt (initState maxl).acc l = 0 := countAt_newAcc maxl l
    rw [h0] at this
    simpa [initState] using this
  · intro hstrict
    rw [run_count_zero_split maxl rs re stream st acc hq hloop hfin]
    have hsub := loop_sublist maxl rs re stream (initState maxl)
    have hties : ∀ w ∈ loopCalls maxl rs re stream (initState maxl),
        (frontTies w : Int) = 0 := by
      intro w hw
      have hw1 : List.Sublist w stream := by simpa [initState] using hsub.1 w hw
      rw [frontTies_strict w (List.Pairwise.sublist hw1 hstrict)]
      rfl
    have hlast : (frontTies st.buffer : Int) = 0 := by
      have hw1 : List.Sublist st.buffer stream := by simpa [initState] using hsub.2 st hloop
      rw [frontTies_strict _ (List.Pairwise.sublist hw1 hstrict)]
      rfl
    have hz : ((loopCalls maxl rs re stream (initState maxl)).map
        (fun w => (frontTies w : Int))).sum = 0 := by
      apply List.sum_eq_zero
      intro x hx
      obtain ⟨w, hw, rfl⟩ := List.mem_map.mp hx
      exact hties w hw
    rw [hz, hlast]
    ring

/-- C19 (amended), on positions 10, 11, 13, 14, 17, 30 with `maxl = 3` and the region
`[1, 20]`: two evictions, a non-empty window at the end, and `count[0] = 3`. -/
theorem count_at_most_pairs_witness :
    ∃ st acc, mainLoop 3 1 20 [mkRec 10 "01", mkRec 11 "11", mkRec 13 "10", mkRec 14 "00",
        mkRec 17 "01", mkRec 30 "11"] (initState 3) = .ok st ∧
      run 3 1 20 [mkRec 10 "01", mkRec 11 "11", mkRec 13 "10", mkRec 14 "00",
        mkRec 17 "01", mkRec 30 "11"] = .ok acc ∧
      (∀ l : Nat, countAt acc l ≤ (pairsAtLag (consumed 1 20 [mkRec 10 "01", mkRec 11 "11",
        mkRec 13 "10", mkRec 14 "00", mkRec 17 "01", mkRec 30 "11"]) l : Int)) ∧
      countAt acc 0 = 3 := by
  obtain ⟨st, acc, hloop, hrun, hpairs, _, hzero⟩ := count_at_most_pairs 3 1 20 2
    [mkRec 10 "01", mkRec 11 "11", mkRec 13 "10", mkRec 14 "00", mkRec 17 "01", mkRec 30 "11"]
    (by decide) (by decide) (by decide) (by decide)
  refine ⟨st, acc, hloop, hrun, hpairs, ?_⟩
  have hb : (match mainLoop 3 1 20 [mkRec 10 "01", mkRec 11 "11", mkRec 13 "10",
      mkRec 14 "00", mkRec 17 "01", mkRec 30 "11"] (initState 3) with
      | .ok s => s.buffer
      | .error _ => []) = [mkRec 17 "01"] := by rfl
  rw [hloop] at hb
  simp only [] at hb
  rw [hzero (by decide), hb]
  rfl

/-! ## Lemmas on the decoder -/

theorem byteLen_ascii (f : List Char) (h : ∀ c ∈ f, c.toNat < 128) : byteLen f = f.length := by
  induction f with
  | nil => rfl
  | cons c f ih =>
    have hc := h c (List.mem_cons_self _ _)
    have h1 : c.utf8Size = 1 := by
      unfold Char.utf8Size
      have : c.val ≤ 127 := by
        rw [UInt32.le_def]
        simp only [Char.toNat] at hc
        show c.val.toNat ≤ 127
        omega
      simp [this]
    simp only [byteLen, List.map_cons, List.sum_cons, List.length_cons] at ih ⊢
    rw [h1, ih (fun x hx => h x (List.mem_cons_of_mem _ hx))]
    omega

theorem dropWhile_snoc_space (c : Char) (hc : isSpace c = true) : ∀ (l : List Char),
    (l.dropWhile isSpace = [] ∧ (l ++ [c]).dropWhile isSpace = []) ∨
    (l ++ [c]).dropWhile isSpace = l.dropWhile isSpace ++ [c] := by
  intro l
  induction l with
  | nil => left; simp [List.dropWhile, hc]
  | cons x l ih =>
    by_cases hx : isSpace x = true
    · simp only [List.cons_append, List.dropWhile_cons, hx, if_true]
      exact ih
    · right
      simp [List.dropWhile_cons, hx]

theorem trimSpace_snoc_space (c : Char) (hc : isSpace c = true) (l : List Char) :
    trimSpace (l ++ [c]) = trimSpace l := by
  unfold trimSpace
  rcases dropWhile_snoc_space c hc l with ⟨h1, h2⟩ | h
  · rw [h1, h2]
  · rw [h, List.reverse_append]
    simp [List.dropWhile_cons, hc]

theorem trimSpace_id (l : List Char) (h1 : ∀ c ∈ l.head?, isSpace c = false)
    (h2 : ∀ c ∈ l.getLast?, isSpace c = false) : trimSpace l = l := by
  unfold trimSpace
  have hd : l.dropWhile isSpace = l := by
    cases l with
    | nil => rfl
    | cons x l =>
      have := h1 x (by simp)
      simp [List.dropWhile_cons, this]
  rw [hd]
  have hr : l.reverse.dropWhile isSpace = l.reverse := by
    cases hrev : l.reverse with
    | nil => rfl
    | cons x t =>
      have hl : l.getLast? = some x := by
        rw [← List.head?_reverse, hrev]; rfl
      have := h2 x (by simp [hl])
      simp [List.dropWhile_cons, this]
  rw [hr, List.reverse_reverse]

theorem readLines_fragment : ∀ (d : List Char), '\n' ∉ d → readLines d = [] := by
  intro d
  induction d with
  | nil => intro _; rfl
  | cons c d ih =>
    intro h
    have hc : c ≠ '\n' := fun e => h (by simp [e])
    have hd : '\n' ∉ d := fun e => h (List.mem_cons_of_mem _ e)
    simp only [readLines, if_neg hc, ih hd]

theorem readLines_append_fragment (d : List Char) (hd : '\n' ∉ d) : ∀ (t : List Char),
    readLines (t ++ d) = readLines t := by
  intro t
  induction t with
  | nil => simp only [List.nil_append, readLines, readLines_fragment d hd]
  | cons c t ih =>
    rw [List.cons_append, readLines, readLines, ih]

theorem readLines_line (rest : List Char) : ∀ (l : List Char), '\n' ∉ l →
    readLines (l ++ '\n' :: rest) = (l ++ ['\n']) :: readLines rest := by
  intro l
  induction l with
  | nil => intro _; simp [readLines]
  | cons c l ih =>
    intro h
    have hc : c ≠ '\n' := fun e => h (by simp [e])
    have hl : '\n' ∉ l := fun e => h (List.mem_cons_of_mem _ e)
    rw [List.cons_append, readLines, if_neg hc, ih hl]
    rfl

theorem readLines_joinLines : ∀ (lines : List (List Char)), (∀ l ∈ lines, '\n' ∉ l) →
    readLines (joinLines lines) = lines.map (fun l => l ++ ['\n']) := by
  intro lines
  induction lines with
  | nil => intro _; rfl
  | cons l lines ih =>
    intro h
    have h1 := readLines_line (joinLines lines) l (h l (List.mem_cons_self _ _))
    have h2 : joinLines (l :: lines) = l ++ '\n' :: joinLines lines := by
      simp [joinLines]
    rw [h2, h1, ih (fun x hx => h x (List.mem_cons_of_mem _ hx))]
    rfl

theorem readLines_after_newline (x : List Char) : ∀ (p : List Char),
    readLines (p ++ '\n' :: x) = readLines (p ++ ['\n']) ++ readLines x := by
  intro p
  induction p with
  | nil => simp [readLines]
  | cons c p ih =>
    by_cases hc : c = '\n'
    · rw [List.cons_append, List.cons_append, readLines, readLines, if_pos hc, if_pos hc, ih]
      rfl
    · rw [List.cons_append, List.cons_append, readLines, readLines, if_neg hc, if_neg hc, ih]
      cases hr : readLines (p ++ ['\n']) with
      | nil =>
        exfalso
        have : ∀ (q : List Char), readLines (q ++ ['\n']) ≠ [] := by
          intro q
          induction q with
          | nil => simp [readLines]
          | cons a q ihq =>
            by_cases ha : a = '\n'
            · simp [readLines, ha]
            · rw [List.cons_append, readLines, if_neg ha]
              cases hq : readLines (q ++ ['\n']) with
              | nil => exact absurd hq ihq
              | cons l ls => simp
        exact this p hr
      | cons l ls => simp

theorem decodeLines_append : ∀ (a b : List (List Char)),
    decodeLines (a ++ b) =
      match decodeLines a with
      | .error e => .error e
      | .ok r1 =>
        match decodeLines b with
        | .error e => .error e
        | .ok r2 => .ok (r1 ++ r2) := by
  intro a
  induction a with
  | nil =>
    intro b
    simp only [List.nil_append, decodeLines]
    cases decodeLines b <;> simp
  | cons line a ih =>
    intro b
    rw [List.cons_append, decodeLines, decodeLines, ih]
    by_cases hc : line.head? = some '#'
    · simp only [if_pos hc]
    · simp only [if_neg hc]
      cases parseLine line with
      | error e => rfl
      | ok o =>
        simp only []
        cases decodeLines a with
        | error e => rfl
        | ok r1 =>
          simp only []
          cases decodeLines b with
          | error e => rfl
          | ok r2 => simp

theorem parseLine_malformed (line : List Char)
    (h : (splitTab (trimSpace line)).length < 5 ∨
      ∃ t, (splitTab (trimSpace line))[1]? = some t ∧ Atoi t = none) :
    ∃ e, parseLine line = .error e := by
  unfold parseLine
  simp only []
  cases h0 : (splitTab (trimSpace line))[0]? with
  | none => exact ⟨_, rfl⟩
  | some chrom =>
    simp only []
    cases h1 : (splitTab (trimSpace line))[1]? with
    | none => exact ⟨_, rfl⟩
    | some t1 =>
      simp only []
      cases ha : Atoi t1 with
      | none => simp only [atoi, ha]; exact ⟨_, rfl⟩
      | some pos =>
        simp only [atoi, ha]
        cases h3 : (splitTab (trimSpace line))[3]? with
        | none => exact ⟨_, rfl⟩
        | some ref =>
          simp only []
          cases h4 : (splitTab (trimSpace line))[4]? with
          | none => exact ⟨_, rfl⟩
          | some alt =>
            exfalso
            rcases h with hlen | ⟨t, ht, hnone⟩
            · have := (List.getElem?_eq_some.mp h4).1
              omega
            · rw [h1] at ht
              cases ht
              rw [ha] at hnone
              cases hnone

theorem scanGT_true : ∀ (ts : List (List Char)) (gts : List Char),
    scanGT true ts gts = gts ++
      ((((ts.filter (fun t => decide (t ≠ ['G', 'T']))).flatten).filter
        (fun c => decide (c ≠ '|'))).map lowByte) := by
  intro ts
  induction ts with
  | nil => intro gts; simp [scanGT]
  | cons t ts ih =>
    intro gts
    by_cases ht : t = ['G', 'T']
    · simp only [scanGT, if_pos ht, ih, List.filter_cons, ht]
      simp
    · simp only [scanGT, if_neg ht, ih, List.filter_cons, if_true]
      simp [ht]

theorem scanGT_false : ∀ (ts : List (List Char)) (gts : List Char),
    scanGT false ts gts = gts ++ gtGathered ts := by
  intro ts
  induction ts with
  | nil => intro gts; simp [scanGT, gtGathered]
  | cons t ts ih =>
    intro gts
    by_cases ht : t = ['G', 'T']
    · simp only [scanGT, if_pos ht, scanGT_true, gtGathered, List.dropWhile_cons, ht]
      simp
    · rw [scanGT, if_neg ht]
      simp only [Bool.false_eq_true, if_false]
      rw [ih]
      simp [gtGathered, List.dropWhile_cons, ht]

theorem splitTab_length : ∀ (l : List Char), (splitTab l).length = l.count '\t' + 1 := by
  intro l
  induction l with
  | nil => rfl
  | cons c l ih =>
    by_cases hc : c = '\t'
    · subst hc
      simp [splitTab, ih]
    · rw [splitTab, if_neg hc]
      have hcount : (c :: l).count '\t' = l.count '\t' := by
        rw [List.count_cons]
        simp [hc]
      rw [hcount, ← ih]
      cases hs : splitTab l with
      | nil => rw [hs] at ih; simp at ih
      | cons f fs => simp

theorem splitTab_trimSpace_length (l : List Char) :
    (splitTab (trimSpace l)).length ≤ (splitTab l).length := by
  rw [splitTab_length, splitTab_length]
  have hsub : List.Sublist (trimSpace l) l := by
    unfold trimSpace
    have h1 : List.Sublist ((l.dropWhile isSpace).reverse.dropWhile isSpace)
        (l.dropWhile isSpace).reverse := List.dropWhile_sublist _
    have h2 := List.Sublist.reverse h1
    rw [List.reverse_reverse] at h2
    exact List.Sublist.trans h2 (List.dropWhile_sublist _)
  have := List.Sublist.count_le hsub '\t'
  omega

theorem head?_snoc_newline (l : List Char) :
    (l ++ ['\n']).head? = some '#' ↔ l.head? = some '#' := by
  cases l with
  | nil => simp
  | cons c l => simp

theorem parseLine_wellFormed (l : List Char) (hwf : WellFormedData l) :
    (isSnpLine l = true → l.head? ≠ some '#' ∧
      ∃ r, parseLine (l ++ ['\n']) = .ok (some r) ∧ Describes l r) ∧
    (l.head? ≠ some '#' → isSnpLine l = false → parseLine (l ++ ['\n']) = .ok none) := by
  obtain ⟨hh, hl, hlen, hpos, href, halt⟩ := hwf
  have htrim : trimSpace (l ++ ['\n']) = l := by
    rw [trimSpace_snoc_space '\n' (by decide) l, trimSpace_id l hh hl]
  have h0 : (splitTab l)[0]? = some ((splitTab l).getD 0 []) :=
    getElem?_eq_some_getD _ _ _ (by omega)
  have h1 : (splitTab l)[1]? = some ((splitTab l).getD 1 []) :=
    getElem?_eq_some_getD _ _ _ (by omega)
  have h3 : (splitTab l)[3]? = some ((splitTab l).getD 3 []) :=
    getElem?_eq_some_getD _ _ _ (by omega)
  have h4 : (splitTab l)[4]? = some ((splitTab l).getD 4 []) :=
    getElem?_eq_some_getD _ _ _ (by omega)
  rw [h1] at hpos
  simp only [Option.some_bind] at hpos
  obtain ⟨pos, hatoi⟩ := Option.isSome_iff_exists.mp hpos
  have hb3 := byteLen_ascii _ (href _ (by rw [h3]; rfl))
  have hb4 := byteLen_ascii _ (halt _ (by rw [h4]; rfl))
  have hparse : parseLine (l ++ ['\n']) =
      if ((splitTab l).getD 4 []).length = 1 ∧ ((splitTab l).getD 3 []).length = 1 then
        .ok (some ⟨String.mk ((splitTab l).getD 0 []), pos, String.mk ((splitTab l).getD 3 []),
          String.mk ((splitTab l).getD 4 []), scanGT false (splitTab l) []⟩)
      else .ok none := by
    unfold parseLine
    simp only [htrim, h0, h1, h3, h4, atoi, hatoi, hb3, hb4]
  have hsnp : isSnpLine l = true ↔ (l.head? ≠ some '#' ∧
      ((splitTab l).getD 4 []).length = 1 ∧ ((splitTab l).getD 3 []).length = 1) := by
    unfold isSnpLine
    rw [h3, h4]
    simp only [Option.map_some', Option.some.injEq, Bool.and_eq_true, decide_eq_true_eq]
    tauto
  constructor
  · intro hs
    obtain ⟨hnc, hc⟩ := hsnp.mp hs
    refine ⟨hnc, _, by rw [hparse, if_pos hc], ?_⟩
    exact ⟨h0, by rw [h1]; exact hatoi, h3, h4⟩
  · intro hnc hs
    have hc : ¬ (((splitTab l).getD 4 []).length = 1 ∧ ((splitTab l).getD 3 []).length = 1) := by
      intro hc
      have := hsnp.mpr ⟨hnc, hc⟩
      rw [hs] at this
      cases this
    rw [hparse, if_neg hc]

theorem decodeLines_wellFormed : ∀ (lines : List (List Char)),
    (∀ l ∈ lines, WellFormedLine l) →
    ∃ recs, decodeLines (lines.map (fun l => l ++ ['\n'])) = .ok recs ∧
      List.Forall₂ Describes (lines.filter isSnpLine) recs := by
  intro lines
  induction lines with
  | nil => intro _; exact ⟨[], rfl, List.Forall₂.nil⟩
  | cons l lines ih =>
    intro h
    obtain ⟨recs, hrec, hall⟩ := ih (fun x hx => h x (List.mem_cons_of_mem _ hx))
    obtain ⟨_, hline⟩ := h l (List.mem_cons_self _ _)
    rw [List.map_cons, decodeLines, hrec]
    by_cases hc : l.head? = some '#'
    · have hns : isSnpLine l = false := by simp [isSnpLine, hc]
      rw [if_pos ((head?_snoc_newline l).mpr hc), List.filter_cons, hns]
      exact ⟨recs, rfl, hall⟩
    · rw [if_neg (fun e => hc ((head?_snoc_newline l).mp e))]
      have hwf : WellFormedData l := by
        rcases hline with h1 | h1
        · exact absurd h1 hc
        · exact h1
      obtain ⟨hyes, hno⟩ := parseLine_wellFormed l hwf
      cases hs : isSnpLine l with
      | true =>
        obtain ⟨_, r, hp, hd⟩ := hyes hs
        rw [hp, List.filter_cons, hs]
        exact ⟨r :: recs, rfl, List.Forall₂.cons hd hall⟩
      | false =>
        rw [hno hc hs, List.filter_cons, hs]
        exact ⟨recs, rfl, hall⟩

/-! ## C12: which lines the decoder emits -/

/-- C12: for an input made of well-formed lines, each terminated by a newline, the decoder
completes, and the records it emits correspond one to one, in the order of the lines, to the
lines that do not begin with the comment marker and whose fourth and fifth fields are both
exactly one character long; each record carries the contig, position and alleles of its
line. The other lines, those with a longer allele included, are dropped without an error, so
the number of records is the number of such lines. -/
theorem readVCF_emits_snp_lines (lines : List (List Char))
    (hwf : ∀ l ∈ lines, WellFormedLine l) :
    ∃ recs, readVCF (joinLines lines) = .ok recs ∧
      List.Forall₂ Describes (lines.filter isSnpLine) recs ∧
      recs.length = (lines.filter isSnpLine).length := by
  obtain ⟨recs, hrec, hall⟩ := decodeLines_wellFormed lines hwf
  refine ⟨recs, ?_, hall, (List.Forall₂.length_eq hall).symm⟩
  unfold readVCF
  rw [readLines_joinLines lines (fun l hl => (hwf l hl).1)]
  exact hrec

/-- C12, on a header line, a SNP line at position 5, a line with a two-character reference at
position 7 and a SNP line at position 9: two records, for the positions 5 and 9. -/
theorem readVCF_emits_snp_lines_witness :
    ∃ recs, readVCF (joinLines ["##fileformat=VCFv4.2".toList,
        "1\t5\t.\tA\tC\t.\t.\t.\tGT\t0|1".toList, "1\t7\t.\tAT\tC\t.\t.\t.\tGT\t1|1".toList,
        "1\t9\t.\tG\tT".toList]) = .ok recs ∧
      List.Forall₂ Describes (["##fileformat=VCFv4.2".toList,
        "1\t5\t.\tA\tC\t.\t.\t.\tGT\t0|1".toList, "1\t7\t.\tAT\tC\t.\t.\t.\tGT\t1|1".toList,
        "1\t9\t.\tG\tT".toList].filter isSnpLine) recs ∧
      recs.length = 2 := by
  obtain ⟨recs, hrun, hall, hlen⟩ := readVCF_emits_snp_lines ["##fileformat=VCFv4.2".toList,
    "1\t5\t.\tA\tC\t.\t.\t.\tGT\t0|1".toList, "1\t7\t.\tAT\tC\t.\t.\t.\tGT\t1|1".toList,
    "1\t9\t.\tG\tT".toList] (by decide)
  exact ⟨recs, hrun, hall, by rw [hlen]; rfl⟩

/-! ## C13: the genotype calls of a record -/

/-- C13 (as stated, refuted): on the line whose fields behind the marker `GT` are `0|1`, `GT`
and `1|1`, the record is emitted with the genotype calls `0111`: the second field equal to
`GT` contributes nothing, although it follows the marker. -/
theorem second_marker_is_skipped :
    ∃ r, parseLine "1\t5\t.\tA\tC\t.\t.\t.\tGT\t0|1\tGT\t1|1\n".toList = .ok (some r) ∧
      r.GTs = "0111".toList ∧
      gtClaimed (splitTab "1\t5\t.\tA\tC\t.\t.\t.\tGT\t0|1\tGT\t1|1".toList) = "01GT11".toList :=
  ⟨_, rfl, rfl, by rfl⟩

/-- C13 (amended): for every line from which a record is emitted, the genotype calls of the
record are the runes, in order and each reduced to its low eight bits (which leaves every
rune below U+0100 unchanged), of all the fields of the trimmed line that follow the first
field equal to `GT` and are not themselves equal to `GT`, with every separator `|` removed;
when no field equals `GT` the genotype sequence is empty. -/
theorem parseLine_genotypes (line : List Char) (r : VCFRecord)
    (h : parseLine line = .ok (some r)) :
    r.GTs = gtGathered (splitTab (trimSpace line)) ∧
    (['G', 'T'] ∉ splitTab (trimSpace line) → r.GTs = []) := by
  have hg : r.GTs = gtGathered (splitTab (trimSpace line)) := by
    unfold parseLine at h
    simp only [] at h
    split at h
    · cases h
    · split at h
      · cases h
      · split at h
        · cases h
        · split at h
          · cases h
          · split at h
            · cases h
            · split at h
              · cases h
                simp only [scanGT_false, List.nil_append]
              · cases h
  refine ⟨hg, fun hno => ?_⟩
  rw [hg]
  have hd : (splitTab (trimSpace line)).dropWhile (fun t => decide (t ≠ ['G', 'T'])) = [] := by
    rw [List.dropWhile_eq_nil_iff]
    intro t ht
    simp only [decide_eq_true_eq]
    intro e
    exact hno (e ▸ ht)
  unfold gtGathered
  rw [hd]
  rfl

/-- C13 (amended), on a line with the sample fields `0|1` and `1|0`, and on a line without
the marker. -/
theorem parseLine_genotypes_witness :
    (∃ r, parseLine "1\t5\t.\tA\tC\t.\t.\t.\tGT\t0|1\t1|0\n".toList = .ok (some r) ∧
      r.GTs = "0110".toList) ∧
    (∃ r, parseLine "1\t5\t.\tA\tC\t.\t.\t.\tGT:DP\t0|1:7\n".toList = .ok (some r) ∧
      r.GTs = []) :=
  ⟨⟨_, rfl, (parseLine_genotypes "1\t5\t.\tA\tC\t.\t.\t.\tGT\t0|1\t1|0\n".toList _ rfl).1.trans
      (by rfl)⟩,
   ⟨_, rfl, (parseLine_genotypes "1\t5\t.\tA\tC\t.\t.\t.\tGT:DP\t0|1:7\n".toList _ rfl).2
      (by decide)⟩⟩

/-! ## C14: malformed lines -/

theorem loopBody_no_break (maxl rs re : Int) (st : State) (r : VCFRecord)
    (h : rs ≤ r.Pos ∧ r.Pos ≤ re) : loopBody maxl rs re st r ≠ .ok none := by
  intro hcon
  unfold loopBody at hcon
  rw [if_neg (by omega)] at hcon
  split at hcon
  · cases hcon
  · split at hcon
    · cases hcon
    · split at hcon <;> cases hcon

theorem pipeline_aborts (maxl rs re : Int) (line : List Char) (rest : List (List Char))
    (hnc : line.head? ≠ some '#') (herr : ∃ e, parseLine line = .error e) :
    ∀ (a : List (List Char)) (st : State),
    (∀ x ∈ a, x.head? ≠ some '#' → staysInRegion rs re x = true) →
    pipeline maxl rs re (a ++ line :: rest) st = .aborts := by
  obtain ⟨e, he⟩ := herr
  intro a
  induction a with
  | nil =>
    intro st _
    rw [List.nil_append, pipeline, if_neg hnc, he]
  | cons x a ih =>
    intro st ha
    have ha1 : ∀ y ∈ a, y.head? ≠ some '#' → staysInRegion rs re y = true :=
      fun y hy => ha y (List.mem_cons_of_mem _ hy)
    rw [List.cons_append, pipeline]
    by_cases hx : x.head? = some '#'
    · rw [if_pos hx]
      exact ih st ha1
    · rw [if_neg hx]
      have hreg := ha x (List.mem_cons_self _ _) hx
      unfold staysInRegion at hreg
      cases hp : parseLine x with
      | error e1 => rfl
      | ok o =>
        cases o with
        | none => exact ih st ha1
        | some r =>
          rw [hp] at hreg
          simp only [decide_eq_true_eq] at hreg
          simp only []
          cases hb : loopBody maxl rs re st r with
          | error e2 => rfl
          | ok o1 =>
            cases o1 with
            | none => exact absurd hb (loopBody_no_break maxl rs re st r hreg)
            | some st1 => exact ih st1 ha1

theorem pipeline_drained (maxl rs re : Int) : ∀ (lines : List (List Char)) (st : State)
    (recs : List VCFRecord), decodeLines lines = .ok recs → InRegion rs re recs →
    pipeline maxl rs re lines st =
      match mainLoop maxl rs re recs st with
      | .error _ => .aborts
      | .ok st1 =>
        match compute st1.buffer st1.acc with
        | .error _ => .aborts
        | .ok acc => .completes acc := by
  intro lines
  induction lines with
  | nil =>
    intro st recs hd _
    simp only [decodeLines] at hd
    cases hd
    rfl
  | cons x a ih =>
    intro st recs hd hreg
    rw [decodeLines] at hd
    rw [pipeline]
    by_cases hx : x.head? = some '#'
    · rw [if_pos hx] at hd
      rw [if_pos hx]
      exact ih st recs hd hreg
    · rw [if_neg hx] at hd
      rw [if_neg hx]
      cases hp : parseLine x with
      | error e => rw [hp] at hd; cases hd
      | ok o =>
        rw [hp] at hd
        simp only [] at hd
        cases ha : decodeLines a with
        | error e => rw [ha] at hd; cases hd
        | ok recs1 =>
          rw [ha] at hd
          simp only [] at hd
          cases hd
          cases o with
          | none => exact ih st recs1 ha hreg
          | some r =>
            simp only [Option.toList, List.singleton_append] at hreg ⊢
            have hr := hreg r (List.mem_cons_self _ _)
            rw [mainLoop]
            cases hb : loopBody maxl rs re st r with
            | error e2 => rfl
            | ok o1 =>
              cases o1 with
              | none => exact absurd hb (loopBody_no_break maxl rs re st r hr)
              | some st1 =>
                exact ih st1 recs1 ha (fun y hy => hreg y (List.mem_cons_of_mem _ hy))

theorem program_drained (maxl rs re : Int) (text : List Char) (recs : List VCFRecord)
    (hd : readVCF text = .ok recs) (hreg : InRegion rs re recs) :
    program maxl rs re text =
      match run maxl rs re recs with
      | .error _ => .aborts
      | .ok acc => .completes acc := by
  unfold program run
  by_cases hneg : maxl < 0
  · rw [if_pos hneg, if_pos hneg]
  · rw [if_neg hneg, if_neg hneg, pipeline_drained maxl rs re _ _ recs hd hreg]
    cases mainLoop maxl rs re recs (initState maxl) with
    | error e => rfl
    | ok st1 => rfl

/-- C14 (as stated, refuted): the line that starts with a tab has the tab-separated fields
(empty), `chr1`, `5`, `.`, `A`, `C`; its second field `chr1` is not a decimal integer, yet the
decoder does not fail: the leading tab is trimmed first, the record of `chr1` at position 5
is emitted, and the run completes. And in the file of three lines with the positions 2000,
2001 and `x`, read with the region `[1, 1000]`, `main` leaves its loop at the first record,
the decoder stays blocked on the send of the second record and never reads the third line:
the run completes although the third line has a position that is not a decimal integer. -/
theorem leading_tab_line_is_decoded :
    ("\tchr1\t5\t.\tA\tC".toList.head? ≠ some '#' ∧
      (splitTab "\tchr1\t5\t.\tA\tC".toList)[1]? = some "chr1".toList ∧
      Atoi "chr1".toList = none ∧
      readVCF "\tchr1\t5\t.\tA\tC\n".toList = .ok [⟨"chr1", 5, "A", "C", []⟩] ∧
      ∃ acc, program 3 1 1000 "\tchr1\t5\t.\tA\tC\n".toList = .completes acc) ∧
    ((readLines "1\t2000\t.\tA\tC\n1\t2001\t.\tA\tC\n1\tx\t.\tA\tC\n".toList)[2]? =
        some "1\tx\t.\tA\tC\n".toList ∧
      (splitTab "1\tx\t.\tA\tC".toList)[1]? = some "x".toList ∧ Atoi "x".toList = none ∧
      program 3 1 1000 "1\t2000\t.\tA\tC\n1\t2001\t.\tA\tC\n1\tx\t.\tA\tC\n".toList =
        .completes (newAcc 3)) :=
  ⟨⟨by decide, by rfl, by rfl, by rfl, _, rfl⟩, by rfl, by rfl, by rfl, by rfl⟩

/-- C14 (amended): let the input contain a line terminated by a newline that does not begin
with the comment marker and that has fewer than five tab-separated fields, before or after
its leading and trailing white space is trimmed, or whose second field after trimming is not
a decimal integer within the range of `int`; and let every record that the decoder emits
from the lines before it lie inside the region, so that `main` is still receiving when the
decoder gets to that line. Then the decoder, read against a consumer that takes every
record, fails, whatever the alleles of that line are, and the run aborts: the line is not
skipped. -/
theorem malformed_line_is_fatal (maxl rs re : Int) (before l after : List Char)
    (hb : before = [] ∨ before.getLast? = some '\n') (hl : '\n' ∉ l)
    (hnc : l.head? ≠ some '#')
    (hmal : (splitTab l).length < 5 ∨ (splitTab (trimSpace l)).length < 5 ∨
      ∃ t, (splitTab (trimSpace l))[1]? = some t ∧ Atoi t = none)
    (hreach : ∀ x ∈ readLines before, x.head? ≠ some '#' → staysInRegion rs re x = true) :
    (∃ e, readVCF (before ++ l ++ '\n' :: after) = .error e) ∧
    program maxl rs re (before ++ l ++ '\n' :: after) = .aborts := by
  have hline : ∃ e, parseLine (l ++ ['\n']) = .error e := by
    apply parseLine_malformed
    rw [trimSpace_snoc_space '\n' (by decide) l]
    rcases hmal with h | h | h
    · exact Or.inl (lt_of_le_of_lt (splitTab_trimSpace_length l) h)
    · exact Or.inl h
    · exact Or.inr h
  have hnc1 : (l ++ ['\n']).head? ≠ some '#' := fun h => hnc ((head?_snoc_newline l).mp h)
  have hlines : readLines (before ++ l ++ '\n' :: after) =
      readLines before ++ (l ++ ['\n']) :: readLines after := by
    rcases hb with rfl | hb
    · rw [List.nil_append, readLines_line after l hl]
      rfl
    · obtain ⟨p, rfl⟩ : ∃ p, before = p ++ ['\n'] := by
        rcases List.eq_nil_or_concat before with h0 | ⟨p, c, h0⟩
        · rw [h0] at hb; simp at hb
        · rw [h0] at hb
          simp only [List.concat_eq_append, List.getLast?_append, List.getLast?_singleton] at hb
          have hc : c = '\n' := Option.some.inj hb
          exact ⟨p, by rw [h0, hc]; simp⟩
      have happ : p ++ ['\n'] ++ l ++ '\n' :: after = p ++ '\n' :: (l ++ '\n' :: after) := by
        simp
      rw [happ, readLines_after_newline, readLines_line after l hl]
  constructor
  · obtain ⟨e, he⟩ := hline
    unfold readVCF
    rw [hlines, decodeLines_append]
    have htail : decodeLines ((l ++ ['\n']) :: readLines after) = .error e := by
      rw [decodeLines, if_neg hnc1, he]
    rw [htail]
    cases decodeLines (readLines before) with
    | error e2 => exact ⟨e2, rfl⟩
    | ok r1 => exact ⟨e, rfl⟩
  · unfold program
    by_cases hneg : maxl < 0
    · rw [if_pos hneg]
    · rw [if_neg hneg, hlines]
      exact pipeline_aborts maxl rs re (l ++ ['\n']) (readLines after) hnc1 hline
        (readLines before) (initState maxl) hreach

/-- C14 (amended), on a header line and a SNP line at position 7, followed by a line whose
position is `x` and whose reference has two characters, followed by a SNP line. -/
theorem malformed_line_is_fatal_witness :
    (∃ e, readVCF ("##h\n1\t7\t.\tA\tC\n".toList ++ "1\tx\t.\tAT\tC".toList ++
      '\n' :: "1\t9\t.\tG\tT\n".toList) = .error e) ∧
    program 3 1 1000 ("##h\n1\t7\t.\tA\tC\n".toList ++ "1\tx\t.\tAT\tC".toList ++
      '\n' :: "1\t9\t.\tG\tT\n".toList) = .aborts :=
  malformed_line_is_fatal 3 1 1000 "##h\n1\t7\t.\tA\tC\n".toList "1\tx\t.\tAT\tC".toList
    "1\t9\t.\tG\tT\n".toList
    (Or.inr (by rfl)) (by decide) (by decide) (Or.inr (Or.inr ⟨"x".toList, by rfl, by rfl⟩))
    (by decide)

/-! ## C20: the last line without a newline -/

/-- C20: text that follows the last newline of the input is never decoded: for every text
`t` and every `d` without a newline, the decoder gives on `t ++ d` what it gives on `t`, the
same records or the same failure, also when `d` is a well-formed SNP line. -/
theorem readVCF_drops_unterminated_line (t d : List Char) (hd : '\n' ∉ d) :
    readVCF (t ++ d) = readVCF t := by
  unfold readVCF
  rw [readLines_append_fragment d hd t]

/-- C20, for a header line and a SNP line followed by the unterminated SNP line of position 9:
only the record of position 5 is emitted. -/
theorem readVCF_drops_unterminated_line_witness :
    readVCF ("##h\n1\t5\t.\tA\tC\n".toList ++ "1\t9\t.\tG\tT".toList) =
      readVCF "##h\n1\t5\t.\tA\tC\n".toList ∧
    readVCF "##h\n1\t5\t.\tA\tC\n".toList = .ok [⟨"1", 5, "A", "C", []⟩] ∧
    readVCF "1\t9\t.\tG\tT\n".toList = .ok [⟨"1", 9, "G", "T", []⟩] :=
  ⟨readVCF_drops_unterminated_line _ _ (by decide), by rfl, by rfl⟩

end Mcorr
